import Mathlib

/-!  Verification of the IsoSpec threshold-generator core against its
specification.  The embedded C++ sources are `IsoSpec++/isoSpec++.h` (the
threshold generators, their carry walk and configuration signatures) and
`IsoSpec++/misc.h` (`unnormalized_logProb`, `get_conf_signature` helpers).
Floating-point numbers are modelled as exact rationals; the out-of-table
guardian of a precomputed marginal table is modelled by the bottom element
of `WithBot ℚ` (negative infinity). -/

namespace IsoSpecVerify

/-- Modelled from the spec: the table data of `PrecalculatedMarginal`, the
class the threshold generators consume, which is declared in
`marginalTrek++.h` and not among the sources.  Per the data model (spec
section 3, marginal tables) one element slot carries the number `k` of
isotopes of the element and parallel arrays of log-probabilities, masses,
plain probabilities and isotope-count vectors, sorted by decreasing
log-probability. -/
structure Marg where
  k : ℕ
  lprobs : List ℚ
  masses : List ℚ
  eprobs : List ℚ
  confs : List (List ℤ)
  deriving Repr, DecidableEq

/-- The data of a constructed threshold generator: the number of element
slots, their marginal tables, and the comparison cutoff `Lcutoff`
(`isoSpec++.h` line 264). -/
structure Gen where
  dimNumber : ℕ
  margs : List Marg
  Lcutoff : ℚ
  deriving Repr

/-- The marginal table of element slot `d` (out-of-range slots give an empty
table; the generators never address slots at or beyond `dimNumber`). -/
def Gen.marg (g : Gen) (d : ℕ) : Marg := g.margs.getD d ⟨0, [], [], [], []⟩

/-- Modelled from the spec: reading a log-probability array of a
precomputed marginal (not among the sources) at a possibly out-of-range
index.  The sorted marginal stores only the configurations above its
cutoff and the walk's sweep of a dimension ends at the first failure (spec
section 4.8); an index outside the stored table therefore behaves as
negative infinity, modelled as the bottom of `WithBot ℚ`. -/
def zlookup (l : List ℚ) (i : ℤ) : WithBot ℚ :=
  if 0 ≤ i then
    match l[i.toNat]? with
    | some x => (x : WithBot ℚ)
    | none => ⊥
  else ⊥

/-- Modelled from the spec: `marginalResults[d]->get_lProb(i)`, the
log-probability of configuration `i` of marginal `d` (the accessor of the
precomputed marginal is not among the sources). -/
def Gen.lk (g : Gen) (d : ℕ) (i : ℤ) : WithBot ℚ := zlookup (g.marg d).lprobs i

/-- Modelled from the spec: `marginalResults[d]->get_mass(i)`, the mass of
configuration `i` of marginal `d` (the accessor is not among the sources);
an out-of-range read yields an unspecified value, modelled as `0`. -/
def Gen.massAt (g : Gen) (d : ℕ) (i : ℤ) : ℚ :=
  if 0 ≤ i then (g.marg d).masses.getD i.toNat 0 else 0

/-- Modelled from the spec: `marginalResults[d]->get_eProb(i)`, the plain
probability of configuration `i` of marginal `d` (the accessor is not
among the sources); an out-of-range read yields an unspecified value,
modelled as `0`. -/
def Gen.eprobAt (g : Gen) (d : ℕ) (i : ℤ) : ℚ :=
  if 0 ≤ i then (g.marg d).eprobs.getD i.toNat 0 else 0

/-- Modelled from the spec: the cumulative mode log-probabilities
`maxConfsLPSum[d] = lprob_0[0] + ... + lprob_d[0]` (spec section 4.8,
construction step 2); the array is filled by the constructor, which is not
among the sources. -/
def Gen.maxLPSum (g : Gen) (d : ℕ) : WithBot ℚ :=
  ∑ e ∈ Finset.range (d + 1), g.lk e 0

/-- The cutoff as an extended rational, for comparisons against partial
log-probability sums. -/
def Gen.cut (g : Gen) : WithBot ℚ := (g.Lcutoff : WithBot ℚ)

/-- The mutable state of the base `IsoThresholdGenerator`: the per-dimension
counters and the prefix sums of log-probabilities, masses and plain
probabilities (`counter`, `partialLProbs`, `partialMasses`,
`partialExpProbs`).  Arrays are modelled as total functions; only indices
up to `dimNumber` are ever addressed. -/
structure BaseState where
  counter : ℕ → ℤ
  pL : ℕ → WithBot ℚ
  pM : ℕ → ℚ
  pE : ℕ → ℚ

namespace IsoThresholdGenerator

/-- One downward step of `IsoThresholdGenerator::recalc` (`isoSpec++.h`
lines 300-308) at index `e`: refresh the three prefix sums at `e` from
those at `e + 1` and the marginal entry selected by `counter[e]`. -/
def updAt (g : Gen) (e : ℕ) (s : BaseState) : BaseState :=
  { s with
    pL := Function.update s.pL e (s.pL (e + 1) + g.lk e (s.counter e)),
    pM := Function.update s.pM e (s.pM (e + 1) + g.massAt e (s.counter e)),
    pE := Function.update s.pE e (s.pE (e + 1) * g.eprobAt e (s.counter e)) }

/-- `IsoThresholdGenerator::recalc(idx)` (`isoSpec++.h` lines 300-308): the
loop `for(; idx >= 0; idx--)` refreshing the prefix sums downward from
index `idx` to index `0`. -/
def recalc (g : Gen) : ℕ → BaseState → BaseState
  | 0, s => updAt g 0 s
  | e + 1, s => recalc g e (updAt g (e + 1) s)

/-- Modelled from the spec: `IsoThresholdGenerator::terminate_search`,
whose body is not among the sources.  The terminate flag "sets the
internal counter into an exhausted state so subsequent advance() calls
return false" (spec section 5); every counter is parked one past its
table, where every lookup yields the guardian. -/
def terminate_search (g : Gen) (s : BaseState) : BaseState :=
  { s with counter := fun d => ((g.marg d).lprobs.length : ℤ) }

/-- The carry cascade of the threshold walk, shared verbatim by the base,
fast and count-only generators (`isoSpec++.h` lines 381-399 for the fast
variant): `while (idx < dimNumber - 1)` reset `counter[idx]`, increment
`counter[idx+1]`, refresh `partialLProbs[idx+1]`, and accept the carry when
the residual-max bound still reaches the cutoff.  The argument `fuel`
equals `dimNumber - 1 - idx`, so `fuel = 0` exactly when the loop guard
fails and the search terminates. -/
def carry (g : Gen) : ℕ → ℕ → BaseState → Bool × BaseState
  | 0, _, s => (false, terminate_search g s)
  | fuel + 1, idx, s =>
    let s1 : BaseState := { s with counter := Function.update s.counter idx 0 }
    let j := idx + 1
    let c := s1.counter j + 1
    let s2 : BaseState := { s1 with
      counter := Function.update s1.counter j c,
      pL := Function.update s1.pL j (s1.pL (j + 1) + g.lk j c) }
    if g.cut ≤ s2.pL j + g.maxLPSum idx then
      let s3 : BaseState := { s2 with
        pM := Function.update s2.pM j (s2.pM (j + 1) + g.massAt j c),
        pE := Function.update s2.pE j (s2.pE (j + 1) * g.eprobAt j c) }
      (true, recalc g idx s3)
    else
      carry g fuel j s2

/-- Modelled from the spec:
`IsoThresholdGenerator::advanceToNextConfiguration`, whose body is not
among the sources.  Per the advance algorithm (spec section 4.8):
increment `counter[0]`, refresh `partialLProb[0]`; on success also refresh
mass and probability and return true, otherwise run the carry cascade.
The structure mirrors the fast variant's inline source (`isoSpec++.h`
lines 357-403) with the pointer caching removed, as the spec describes the
fast variant as an alias-cached rendering of this walk. -/
def advanceToNextConfiguration (g : Gen) (s : BaseState) : Bool × BaseState :=
  let c0 := s.counter 0 + 1
  let s1 : BaseState := { s with
    counter := Function.update s.counter 0 c0,
    pL := Function.update s.pL 0 (s.pL 1 + g.lk 0 c0) }
  if g.cut ≤ s1.pL 0 then
    (true, { s1 with
      pM := Function.update s1.pM 0 (s1.pM 1 + g.massAt 0 c0),
      pE := Function.update s1.pE 0 (s1.pE 1 * g.eprobAt 0 c0) })
  else
    carry g (g.dimNumber - 1) 0 s1

/-- Modelled from the spec: the state a constructed
`IsoThresholdGenerator` starts in (the constructor body is not among the
sources).  Every counter starts at zero and the prefix sums are seeded
with `partialLProb[D] = 0`, `partialMass[D] = 0`, `partialEProb[D] = 1`
and propagated downward via the recurrence (spec section 4.8, construction
step 3); the dimension-0 counter is then parked one position before the
mode so that the first successful advance emits the joint mode itself, as
the spec requires ("the joint mode itself is emitted", section 8, and
concrete scenario 1) and as the fast variant's pointer initialisation in
the source confirms (the hot path reads the dimension-0 log-probability
through a pointer that starts at entry 0, before advancing it). -/
def construct (g : Gen) : BaseState :=
  let s0 : BaseState := ⟨fun _ => 0, fun _ => 0, fun _ => 0, fun _ => 1⟩
  let s1 := recalc g (g.dimNumber - 1) s0
  { s1 with counter := Function.update s1.counter 0 (-1) }

/-- `IsoThresholdGenerator::get_conf_signature` (`isoSpec++.h` lines
269-276): concatenate, over element slots, the `isotopeNumbers[ii]`
integers of the configuration selected by `counter[ii]`. -/
def get_conf_signature (g : Gen) (s : BaseState) : List ℤ :=
  (List.range g.dimNumber).flatMap fun d =>
    (List.range (g.marg d).k).map fun i =>
      ((g.marg d).confs.getD (s.counter d).toNat []).getD i 0

end IsoThresholdGenerator

/-- The state of `IsoThresholdGeneratorFast`: the base state plus the
cached positions of `lProbs_ptr`, `mass_ptr` and `exp_ptr` inside marginal
0's arrays (`isoSpec++.h` lines 319-321). -/
structure FastState where
  base : BaseState
  lptr : ℕ
  mptr : ℕ
  eptr : ℕ

namespace IsoThresholdGeneratorFast

/-- `IsoThresholdGeneratorFast::advanceToNextConfiguration` (`isoSpec++.h`
lines 357-403), transcribed statement by statement: increment
`counter[0]`; refresh `partialLProbs[0]` from the value under `lProbs_ptr`
read before the three pointers are incremented; on success refresh mass and
probability from the values under `mass_ptr` and `exp_ptr` read after the
increment; otherwise reset the pointers to one past the start of marginal
0's arrays and run the carry cascade (lines 373-399), which is the code of
the base variant. -/
def advanceToNextConfiguration (g : Gen) (s : FastState) : Bool × FastState :=
  let c0 := s.base.counter 0 + 1
  let b1 : BaseState := { s.base with
    counter := Function.update s.base.counter 0 c0,
    pL := Function.update s.base.pL 0 (s.base.pL 1 + g.lk 0 (s.lptr : ℤ)) }
  let lptr1 := s.lptr + 1
  let mptr1 := s.mptr + 1
  let eptr1 := s.eptr + 1
  if g.cut ≤ b1.pL 0 then
    (true,
      { base := { b1 with
          pM := Function.update b1.pM 0 (b1.pM 1 + g.massAt 0 (mptr1 : ℤ)),
          pE := Function.update b1.pE 0 (b1.pE 1 * g.eprobAt 0 (eptr1 : ℤ)) },
        lptr := lptr1, mptr := mptr1, eptr := eptr1 })
  else
    let r := IsoThresholdGenerator.carry g (g.dimNumber - 1) 0 b1
    (r.1, { base := r.2, lptr := 1, mptr := 1, eptr := 1 })

/-- The state of a freshly constructed `IsoThresholdGeneratorFast`
(`isoSpec++.h` lines 333-353): the base construction followed by caching
the three pointers obtained from marginal 0's pointer getters; the getters
are not among the sources and are modelled, per the spec's description of
the tables as plain parallel arrays, as the start of those arrays
(position 0). -/
def construct (g : Gen) : FastState :=
  ⟨IsoThresholdGenerator.construct g, 0, 0, 0⟩

/-- `IsoThresholdGeneratorFast::get_conf_signature` (`isoSpec++.h` line
331): the override has an empty body and writes nothing into the caller's
buffer. -/
def get_conf_signature (_g : Gen) (_s : FastState) : List ℤ := []

end IsoThresholdGeneratorFast

/-- The state of `IsoThresholdGeneratorCntr` as exercised by its walk: the
counters, the log-probability prefix sums and the cached `lProbs_ptr`
position.  The inherited mass and probability arrays are never read nor
written by the count-only advance (`isoSpec++.h` lines 437-471) and its
`recalc` (lines 474-480), so they are omitted from the model. -/
structure CntrState where
  counter : ℕ → ℤ
  pL : ℕ → WithBot ℚ
  lptr : ℕ

namespace IsoThresholdGeneratorCntr

/-- The count-only rendering of `recalc` (`isoSpec++.h` lines 474-480):
only the log-probability prefix sums are refreshed. -/
def recalc (g : Gen) : ℕ → CntrState → CntrState
  | 0, s => { s with pL := Function.update s.pL 0 (s.pL 1 + g.lk 0 (s.counter 0)) }
  | e + 1, s =>
    recalc g e
      { s with pL := Function.update s.pL (e + 1) (s.pL (e + 2) + g.lk (e + 1) (s.counter (e + 1))) }

/-- The carry cascade of `IsoThresholdGeneratorCntr::advanceToNextConfiguration`
(`isoSpec++.h` lines 449-467): as in the fast variant but with no mass or
probability bookkeeping. -/
def carry (g : Gen) : ℕ → ℕ → CntrState → Bool × CntrState
  | 0, _, s => (false, { s with counter := fun d => ((g.marg d).lprobs.length : ℤ) })
  | fuel + 1, idx, s =>
    let s1 : CntrState := { s with counter := Function.update s.counter idx 0 }
    let j := idx + 1
    let c := s1.counter j + 1
    let s2 : CntrState := { s1 with
      counter := Function.update s1.counter j c,
      pL := Function.update s1.pL j (s1.pL (j + 1) + g.lk j c) }
    if g.cut ≤ s2.pL j + g.maxLPSum idx then
      (true, recalc g idx s2)
    else
      carry g fuel j s2

/-- `IsoThresholdGeneratorCntr::advanceToNextConfiguration` (`isoSpec++.h`
lines 437-471): the fast walk with every mass and probability update
removed. -/
def advanceToNextConfiguration (g : Gen) (s : CntrState) : Bool × CntrState :=
  let c0 := s.counter 0 + 1
  let s1 : CntrState := { s with
    counter := Function.update s.counter 0 c0,
    pL := Function.update s.pL 0 (s.pL 1 + g.lk 0 (s.lptr : ℤ)) }
  let lptr1 := s.lptr + 1
  if g.cut ≤ s1.pL 0 then
    (true, { s1 with lptr := lptr1 })
  else
    let r := carry g (g.dimNumber - 1) 0 s1
    (r.1, { r.2 with lptr := 1 })

/-- The state of a freshly constructed `IsoThresholdGeneratorCntr`
(`isoSpec++.h` lines 429-433): the fast construction restricted to the
fields the count-only walk touches. -/
def construct (g : Gen) : CntrState :=
  ⟨(IsoThresholdGenerator.construct g).counter, (IsoThresholdGenerator.construct g).pL, 0⟩

/-- `IsoThresholdGeneratorCntr::get_conf_signature` (`isoSpec++.h` line
426): the override has an empty body and writes nothing. -/
def get_conf_signature (_g : Gen) (_s : CntrState) : List ℤ := []

end IsoThresholdGeneratorCntr

/-- The current joint configuration of a base-generator state, as the list
of its `dimNumber` counters. -/
def confList (g : Gen) (s : BaseState) : List ℤ :=
  (List.range g.dimNumber).map s.counter

/-- The boolean sequence returned by repeated `advanceToNextConfiguration`
calls on the base generator, truncated just after the first `false` (the
point at which a client's generation loop stops). -/
def boolsB (g : Gen) : ℕ → BaseState → List Bool
  | 0, _ => []
  | n + 1, s =>
    let r := IsoThresholdGenerator.advanceToNextConfiguration g s
    if r.1 then true :: boolsB g n r.2 else [false]

/-- The boolean sequence of the fast generator, truncated after the first
`false`. -/
def boolsF (g : Gen) : ℕ → FastState → List Bool
  | 0, _ => []
  | n + 1, s =>
    let r := IsoThresholdGeneratorFast.advanceToNextConfiguration g s
    if r.1 then true :: boolsF g n r.2 else [false]

/-- The boolean sequence of the count-only generator, truncated after the
first `false`. -/
def boolsC (g : Gen) : ℕ → CntrState → List Bool
  | 0, _ => []
  | n + 1, s =>
    let r := IsoThresholdGeneratorCntr.advanceToNextConfiguration g s
    if r.1 then true :: boolsC g n r.2 else [false]

/-- The run of the base generator for at most `fuel` advances: the list of
emitted joint configurations, the final state, and whether the run reached
an unsuccessful advance (exhaustion) within the fuel. -/
def runB (g : Gen) : ℕ → BaseState → List (List ℤ) × BaseState × Bool
  | 0, s => ([], s, false)
  | n + 1, s =>
    let r := IsoThresholdGenerator.advanceToNextConfiguration g s
    if r.1 then
      let rest := runB g n r.2
      (confList g r.2 :: rest.1, rest.2)
    else
      ([], r.2, true)

/-- The total log-probability of a joint configuration given as a list of
per-dimension table indices: the sum of the selected marginal
log-probabilities over all element slots. -/
def jointLP (g : Gen) (w : List ℤ) : WithBot ℚ :=
  ∑ e ∈ Finset.range g.dimNumber, g.lk e (w.getD e 0)

/-- A joint configuration that the threshold criterion admits: a list of
`dimNumber` indices whose total log-probability reaches the cutoff (an
index outside its table contributes the guardian, so admissible lists
address their tables in range). -/
def Accepted (g : Gen) (w : List ℤ) : Prop :=
  w.length = g.dimNumber ∧ g.cut ≤ jointLP g w

/-- Colexicographic strict order on index lists of length `D`: at the
highest differing position the left list is smaller.  This is the order in
which the multi-radix carry walk visits joint configurations. -/
def ColexLt (D : ℕ) (u w : List ℤ) : Prop :=
  ∃ j, j < D ∧ u.getD j 0 < w.getD j 0 ∧ ∀ e, j < e → e < D → u.getD e 0 = w.getD e 0

/-- The description a threshold generator is constructed from: the number
of element slots, their marginal tables and the joint mode log-probability
(the fields of class `Iso` the constructor consumes). -/
structure IsoDescr where
  dimNumber : ℕ
  margs : List Marg
  modeLProb : ℚ
  deriving Repr

/-- Modelled from the spec: construction of the generator data from a
molecule description, a threshold whose logarithm is `logThreshold`, and
the absoluteness flag (the constructor body is not among the sources).
Per the threshold semantics (spec section 6): "absolute = true: the
comparison cutoff is log(tau).  absolute = false: cutoff is log(tau) +
mode log-probability". -/
def mkGen (iso : IsoDescr) (logThreshold : ℚ) (absolute : Bool) : Gen :=
  { dimNumber := iso.dimNumber,
    margs := iso.margs,
    Lcutoff := if absolute then logThreshold else logThreshold + iso.modeLProb }

/-- The typed errors of the library that concern threshold construction. -/
inductive IsoSpecError where
  | InvalidThreshold
  deriving Repr, DecidableEq

/-- Modelled from the spec: the validation performed when a threshold
generator is constructed (the constructor body is not among the sources),
with `logf` the logarithm used on a threshold that passed validation.  "A
non-positive tau is invalid (InvalidThreshold)" (spec section 6), while "a
relative threshold above 1 is silently accepted by the source (trivially
empty result)" (spec section 9, open question c), so no further check is
performed on the accepted range. -/
def mkThresholdGenerator (iso : IsoDescr) (logf : ℚ → ℚ) (threshold : ℚ)
    (absolute : Bool) : Except IsoSpecError Gen :=
  if threshold ≤ 0 then Except.error IsoSpecError.InvalidThreshold
  else Except.ok (mkGen iso (logf threshold) absolute)

/-- The floating-point rounding direction selected through `fesetround`
(`misc.h` lines 54-66). -/
inductive RoundMode where
  | toNearest
  | towardZero
  | upward
  | downward
  deriving Repr, DecidableEq

/-- Modelled from the spec: the primitive floating-point operations
`unnormalized_logProb` builds on, each parametrised by the rounding mode
in force when it executes — rounded addition, the rounded product of an
integer count with a log-probability, and `minuslogFactorial`, which lives
in `isoMath.h` and is not among the sources (the spec describes it as the
negated log-factorial, section 4.1).  All are left abstract. -/
structure FloatOps where
  fadd : RoundMode → ℚ → ℚ → ℚ
  fmul : RoundMode → ℤ → ℚ → ℚ
  mlf : RoundMode → ℤ → ℚ

/-- `unnormalized_logProb` (`misc.h` lines 50-69), with the rounding-mode
register threaded explicitly: save the entry mode (`fegetround`), switch to
round-toward-zero and accumulate the `minuslogFactorial` terms, switch to
round-upward and accumulate the `conf[i] * logProbs[i]` terms, restore the
entry mode, and return the accumulated value together with the mode in
force on return. -/
def unnormalized_logProb (ops : FloatOps) (conf : List ℤ) (logProbs : List ℚ)
    (entryMode : RoundMode) : ℚ × RoundMode :=
  let curr_method := entryMode
  let res1 := conf.foldl
    (fun r c => ops.fadd RoundMode.towardZero r (ops.mlf RoundMode.towardZero c)) 0
  let res2 := (conf.zip logProbs).foldl
    (fun r cp => ops.fadd RoundMode.upward r (ops.fmul RoundMode.upward cp.1 cp.2)) res1
  (res2, curr_method)

namespace IsoOrderedGenerator

/-- `IsoOrderedGenerator::get_conf_signature` (`isoSpec++.h` lines
227-242) as a state transformer on the configuration vector stored inside
`topConf`: when `ccount` is non-negative the entry at `ccount` is
decremented, then for every element slot the `isotopeNumbers[ii]` integers
of the marginal configuration selected by the (possibly decremented)
vector are copied into the buffer, and finally the decremented entry is
incremented again.  The result is the written buffer together with the
configuration vector as it is left on return. -/
def get_conf_signature (dimNumber : ℕ) (isotopeNumbers : ℕ → ℕ)
    (marginalConfs : ℕ → ℤ → List ℤ) (topConf : List ℤ) (ccount : ℤ) :
    List ℤ × List ℤ :=
  let c1 := if 0 ≤ ccount then
      topConf.set ccount.toNat (topConf.getD ccount.toNat 0 - 1)
    else topConf
  let space := (List.range dimNumber).flatMap fun ii =>
    (List.range (isotopeNumbers ii)).map fun i =>
      (marginalConfs ii (c1.getD ii 0)).getD i 0
  let c2 := if 0 ≤ ccount then
      c1.set ccount.toNat (c1.getD ccount.toNat 0 + 1)
    else c1
  (space, c2)

end IsoOrderedGenerator

/-! ### Basic facts about table lookups -/

/-- A log-probability table sorted by decreasing value, the invariant of a
precomputed marginal (spec section 3: "when sorted flag set, lprob is
non-increasing"). -/
def SortedDesc (l : List ℚ) : Prop := l.Pairwise (fun a b => b ≤ a)

instance (l : List ℚ) : Decidable (SortedDesc l) := by
  unfold SortedDesc; infer_instance

/-- Every marginal table of the generator is sorted by decreasing
log-probability. -/
def SortedGen (g : Gen) : Prop := ∀ m ∈ g.margs, SortedDesc m.lprobs

instance (g : Gen) : Decidable (SortedGen g) := by
  unfold SortedGen; infer_instance

theorem zlookup_neg {l : List ℚ} {i : ℤ} (h : i < 0) : zlookup l i = ⊥ := by
  simp [zlookup, not_le.mpr h]

theorem zlookup_eq_bot_of_length {l : List ℚ} {i : ℤ} (h : (l.length : ℤ) ≤ i) :
    zlookup l i = ⊥ := by
  rcases le_or_lt 0 i with h0 | h0
  · have hlen : l.length ≤ i.toNat := by omega
    simp [zlookup, h0, List.getElem?_eq_none hlen]
  · exact zlookup_neg h0

theorem zlookup_ne_bot {l : List ℚ} {i : ℤ} (h : zlookup l i ≠ ⊥) :
    0 ≤ i ∧ i < (l.length : ℤ) := by
  constructor
  · by_contra hc
    exact h (zlookup_neg (by omega))
  · by_contra hc
    exact h (zlookup_eq_bot_of_length (by omega))

theorem zlookup_of_lt {l : List ℚ} {i : ℤ} (h0 : 0 ≤ i) (h : i < (l.length : ℤ)) :
    zlookup l i = (l.get ⟨i.toNat, by omega⟩ : ℚ) := by
  have hn : i.toNat < l.length := by omega
  simp [zlookup, h0, List.getElem?_eq_getElem hn, List.get_eq_getElem]

theorem zlookup_anti {l : List ℚ} (hs : SortedDesc l) {i j : ℤ}
    (h0 : 0 ≤ i) (hij : i ≤ j) : zlookup l j ≤ zlookup l i := by
  rcases le_or_lt (l.length : ℤ) j with hj | hj
  · simp [zlookup_eq_bot_of_length hj]
  · have h0j : 0 ≤ j := le_trans h0 hij
    have hi : i < (l.length : ℤ) := lt_of_le_of_lt hij hj
    rw [zlookup_of_lt h0 hi, zlookup_of_lt h0j hj]
    rcases eq_or_lt_of_le hij with rfl | hlt
    · exact le_refl _
    · have hnat : i.toNat < j.toNat := by omega
      have := (List.pairwise_iff_getElem.1 hs) i.toNat j.toNat (by omega) (by omega) hnat
      exact_mod_cast this

theorem zlookup_le_zero {l : List ℚ} (hs : SortedDesc l) (i : ℤ) :
    zlookup l i ≤ zlookup l 0 := by
  rcases lt_or_le i 0 with h | h
  · simp [zlookup_neg h]
  · exact zlookup_anti hs le_rfl h

theorem SortedGen.marg {g : Gen} (hg : SortedGen g) (d : ℕ) :
    SortedDesc (g.marg d).lprobs := by
  unfold Gen.marg
  rcases lt_or_le d g.margs.length with h | h
  · rw [List.getD_eq_getElem _ _ h]
    exact hg _ (List.getElem_mem h)
  · rw [List.getD_eq_default _ _ h]
    exact List.Pairwise.nil

/-! ### The downward prefix-sum recomputation -/

/-- The suffix log-probability sum of the joint configuration selected by
the counters `v`, from dimension `d` upward: the value `partialLProbs[d]`
holds when it is in sync with the counters. -/
def sfx (g : Gen) (v : ℕ → ℤ) (d : ℕ) : WithBot ℚ :=
  ∑ e ∈ Finset.Ico d g.dimNumber, g.lk e (v e)

namespace IsoThresholdGenerator

theorem updAt_counter (g : Gen) (e : ℕ) (s : BaseState) :
    (updAt g e s).counter = s.counter := rfl

theorem recalc_counter (g : Gen) (T : ℕ) (s : BaseState) :
    (recalc g T s).counter = s.counter := by
  induction T generalizing s with
  | zero => rfl
  | succ e ih => rw [recalc, ih]; rfl

theorem recalc_pL_high (g : Gen) (T : ℕ) (s : BaseState) {d : ℕ} (h : T < d) :
    (recalc g T s).pL d = s.pL d := by
  induction T generalizing s with
  | zero =>
    show (updAt g 0 s).pL d = s.pL d
    simp [updAt, Function.update_noteq (by omega : d ≠ 0)]
  | succ e ih =>
    rw [recalc, ih _ (by omega)]
    simp [updAt, Function.update_noteq (by omega : d ≠ e + 1)]

theorem recalc_pL_le (g : Gen) (T : ℕ) (s : BaseState) {d : ℕ} (h : d ≤ T) :
    (recalc g T s).pL d
      = s.pL (T + 1) + ∑ e ∈ Finset.Ico d (T + 1), g.lk e (s.counter e) := by
  induction T generalizing s with
  | zero =>
    have hd : d = 0 := by omega
    subst hd
    show (updAt g 0 s).pL 0 = _
    rw [Finset.sum_Ico_succ_top (le_refl 0), Finset.Ico_self, Finset.sum_empty, zero_add]
    simp [updAt]
  | succ e ih =>
    rcases Nat.lt_or_ge d (e + 1) with hd | hd
    · rw [recalc, ih _ (by omega)]
      have hcnt : (updAt g (e + 1) s).counter = s.counter := rfl
      rw [hcnt]
      have hpl : (updAt g (e + 1) s).pL (e + 1)
          = s.pL (e + 2) + g.lk (e + 1) (s.counter (e + 1)) := by
        simp [updAt]
      rw [hpl, Finset.sum_Ico_succ_top (by omega : d ≤ e + 1)]
      abel
    · have hde : d = e + 1 := by omega
      subst hde
      rw [recalc, recalc_pL_high g e _ (by omega)]
      have : (updAt g (e + 1) s).pL (e + 1)
          = s.pL (e + 2) + g.lk (e + 1) (s.counter (e + 1)) := by
        simp [updAt]
      rw [this, Finset.sum_Ico_succ_top (le_refl (e + 1)), Finset.Ico_self,
        Finset.sum_empty, zero_add]

/-- A carry accepted at any dimension leaves `partialLProbs[0]` at or above
the cutoff: the tested residual-max bound is exactly the value `recalc`
rebuilds, because all lower counters have been reset to the mode. -/
theorem carry_true_cut (g : Gen) (fuel : ℕ) :
    ∀ idx s, (∀ e, e < idx → s.counter e = 0) →
      (carry g fuel idx s).1 = true →
      g.cut ≤ (carry g fuel idx s).2.pL 0 := by
  induction fuel with
  | zero => intro idx s _ h; simp [carry] at h
  | succ fuel ih =>
    intro idx s hzero htrue
    rw [carry] at htrue ⊢
    set s1 : BaseState := { s with counter := Function.update s.counter idx 0 } with hs1
    set c : ℤ := s1.counter (idx + 1) + 1 with hc
    set s2 : BaseState := { s1 with
      counter := Function.update s1.counter (idx + 1) c,
      pL := Function.update s1.pL (idx + 1) (s1.pL (idx + 1 + 1) + g.lk (idx + 1) c) } with hs2
    by_cases hacc : g.cut ≤ s2.pL (idx + 1) + g.maxLPSum idx
    · rw [if_pos hacc] at htrue ⊢
      set s3 : BaseState := { s2 with
        pM := Function.update s2.pM (idx + 1) (s2.pM (idx + 1 + 1) + g.massAt (idx + 1) c),
        pE := Function.update s2.pE (idx + 1) (s2.pE (idx + 1 + 1) * g.eprobAt (idx + 1) c) }
        with hs3
      show g.cut ≤ (recalc g idx s3).pL 0
      rw [recalc_pL_le g idx s3 (Nat.zero_le idx)]
      have hcnt : ∀ e ∈ Finset.Ico 0 (idx + 1), g.lk e (s3.counter e) = g.lk e 0 := by
        intro e he
        have he' : e < idx + 1 := (Finset.mem_Ico.1 he).2
        have : s3.counter e = 0 := by
          show (Function.update s1.counter (idx + 1) c) e = 0
          rw [Function.update_noteq (by omega : e ≠ idx + 1)]
          rcases Nat.lt_or_ge e idx with h | h
          · show (Function.update s.counter idx 0) e = 0
            rw [Function.update_noteq (by omega : e ≠ idx)]
            exact hzero e h
          · have : e = idx := by omega
            subst this
            exact Function.update_same _ _ _
        rw [this]
      rw [Finset.sum_congr rfl hcnt]
      have hsum : ∑ e ∈ Finset.Ico 0 (idx + 1), g.lk e 0 = g.maxLPSum idx := by
        rw [Gen.maxLPSum, Finset.range_eq_Ico]
      rw [hsum]
      have hpl3 : s3.pL (idx + 1) = s2.pL (idx + 1) := rfl
      rw [hpl3]
      exact hacc
    · rw [if_neg hacc] at htrue ⊢
      refine ih (idx + 1) s2 ?_ htrue
      intro e he
      show (Function.update s1.counter (idx + 1) c) e = 0
      rw [Function.update_noteq (by omega : e ≠ idx + 1)]
      rcases Nat.lt_or_ge e idx with h | h
      · show (Function.update s.counter idx 0) e = 0
        rw [Function.update_noteq (by omega : e ≠ idx)]
        exact hzero e h
      · have : e = idx := by omega
        subst this
        exact Function.update_same _ _ _

end IsoThresholdGenerator

/-! ### Stage candidates of the carry walk -/

/-- The joint log-probability of the candidate the walk examines at stage
`j`: dimensions below `j` reset to their modes, dimension `j` advanced one
position beyond `v j`, dimensions above `j` kept at `v`. -/
def stageVal (g : Gen) (v : ℕ → ℤ) (j : ℕ) : WithBot ℚ :=
  (∑ e ∈ Finset.range j, g.lk e 0) + g.lk j (v j + 1) + sfx g v (j + 1)

/-- The counters after a carry accepted at stage `j`. -/
def stageSucc (v : ℕ → ℤ) (j : ℕ) : ℕ → ℤ :=
  fun e => if e < j then 0 else if e = j then v j + 1 else v e

theorem sfx_stageSucc (g : Gen) (v : ℕ → ℤ) {j : ℕ} (hj : j < g.dimNumber) :
    sfx g (stageSucc v j) 0 = stageVal g v j := by
  unfold sfx stageVal
  rw [← Finset.sum_Ico_consecutive (fun e => g.lk e (stageSucc v j e))
      (Nat.zero_le j) (le_of_lt hj),
    Finset.sum_eq_sum_Ico_succ_bot hj (fun e => g.lk e (stageSucc v j e))]
  have h1 : ∑ e ∈ Finset.Ico 0 j, g.lk e (stageSucc v j e)
      = ∑ e ∈ Finset.range j, g.lk e 0 := by
    rw [Finset.range_eq_Ico]
    refine Finset.sum_congr rfl fun e he => ?_
    have he' : e < j := (Finset.mem_Ico.1 he).2
    simp [stageSucc, he']
  have h2 : g.lk j (stageSucc v j j) = g.lk j (v j + 1) := by simp [stageSucc]
  have h3 : ∑ e ∈ Finset.Ico (j + 1) g.dimNumber, g.lk e (stageSucc v j e)
      = ∑ e ∈ Finset.Ico (j + 1) g.dimNumber, g.lk e (v e) := by
    refine Finset.sum_congr rfl fun e he => ?_
    have h : j + 1 ≤ e := (Finset.mem_Ico.1 he).1
    rw [stageSucc, if_neg (by omega : ¬ e < j), if_neg (by omega : ¬ e = j)]
  rw [h1, h2, h3]
  abel

theorem sfx_stageSucc_ge (g : Gen) (v : ℕ → ℤ) {j d : ℕ} (hd : d ≤ j)
    (hj : j < g.dimNumber) :
    sfx g (stageSucc v j) d
      = (∑ e ∈ Finset.Ico d j, g.lk e 0) + g.lk j (v j + 1) + sfx g v (j + 1) := by
  unfold sfx
  rw [← Finset.sum_Ico_consecutive (fun e => g.lk e (stageSucc v j e)) hd (le_of_lt hj),
    Finset.sum_eq_sum_Ico_succ_bot hj (fun e => g.lk e (stageSucc v j e))]
  have h1 : ∑ e ∈ Finset.Ico d j, g.lk e (stageSucc v j e)
      = ∑ e ∈ Finset.Ico d j, g.lk e 0 := by
    refine Finset.sum_congr rfl fun e he => ?_
    have he' : e < j := (Finset.mem_Ico.1 he).2
    simp [stageSucc, he']
  have h2 : g.lk j (stageSucc v j j) = g.lk j (v j + 1) := by simp [stageSucc]
  have h3 : ∑ e ∈ Finset.Ico (j + 1) g.dimNumber, g.lk e (stageSucc v j e)
      = ∑ e ∈ Finset.Ico (j + 1) g.dimNumber, g.lk e (v e) := by
    refine Finset.sum_congr rfl fun e he => ?_
    have h : j + 1 ≤ e := (Finset.mem_Ico.1 he).1
    rw [stageSucc, if_neg (by omega : ¬ e < j), if_neg (by omega : ¬ e = j)]
  rw [h1, h2, h3]
  abel

theorem sfx_stageSucc_high (g : Gen) (v : ℕ → ℤ) {j d : ℕ} (hd : j < d) :
    sfx g (stageSucc v j) d = sfx g v d := by
  refine Finset.sum_congr rfl fun e he => ?_
  have h : d ≤ e := (Finset.mem_Ico.1 he).1
  rw [stageSucc, if_neg (by omega : ¬ e < j), if_neg (by omega : ¬ e = j)]

namespace IsoThresholdGenerator

/-- The full behaviour of the carry cascade: entered at `idx` with the
lower counters reset, dimension `idx` freshly advanced past `v idx`, and
the prefix sums above `idx` in sync with `v`, it accepts at the first stage
`j` above `idx` whose candidate still reaches the cutoff — leaving the
counters at that candidate and every prefix sum in sync — and reports
exhaustion exactly when no stage above `idx` reaches the cutoff. -/
theorem carry_spec (g : Gen) (fuel : ℕ) :
    ∀ idx s (v : ℕ → ℤ),
      g.dimNumber = idx + 1 + fuel →
      (∀ e, e < idx → s.counter e = 0) →
      (∀ e, idx < e → s.counter e = v e) →
      (∀ d, idx < d → s.pL d = sfx g v d) →
      ((carry g fuel idx s).1 = true →
        ∃ j, idx < j ∧ j < g.dimNumber ∧
          (∀ t, idx < t → t < j → ¬ g.cut ≤ stageVal g v t) ∧
          g.cut ≤ stageVal g v j ∧
          (∀ e, (carry g fuel idx s).2.counter e = stageSucc v j e) ∧
          (∀ d, (carry g fuel idx s).2.pL d
            = sfx g (carry g fuel idx s).2.counter d)) ∧
      ((carry g fuel idx s).1 = false →
        ∀ t, idx < t → t < g.dimNumber → ¬ g.cut ≤ stageVal g v t) := by
  induction fuel with
  | zero =>
    intro idx s v hD hzero habove hpl
    constructor
    · intro h; simp [carry] at h
    · intro _ t ht htD; omega
  | succ fuel ih =>
    intro idx s v hD hzero habove hpl
    rw [carry]
    set s1 : BaseState := { s with counter := Function.update s.counter idx 0 } with hs1
    set c : ℤ := s1.counter (idx + 1) + 1 with hc
    set s2 : BaseState := { s1 with
      counter := Function.update s1.counter (idx + 1) c,
      pL := Function.update s1.pL (idx + 1) (s1.pL (idx + 1 + 1) + g.lk (idx + 1) c) }
      with hs2
    have hcv : c = v (idx + 1) + 1 := by
      rw [hc]
      show (Function.update s.counter idx 0) (idx + 1) + 1 = v (idx + 1) + 1
      rw [Function.update_noteq (by omega : idx + 1 ≠ idx)]
      rw [habove (idx + 1) (by omega)]
    have hs2c : ∀ e, s2.counter e
        = if e = idx + 1 then c else if e = idx then 0 else s.counter e := by
      intro e
      show (Function.update (Function.update s.counter idx 0) (idx + 1) c) e = _
      by_cases h1 : e = idx + 1
      · subst h1; rw [Function.update_same, if_pos rfl]
      · rw [Function.update_noteq h1, if_neg h1]
        by_cases h2 : e = idx
        · subst h2; rw [Function.update_same, if_pos rfl]
        · rw [Function.update_noteq h2, if_neg h2]
    have hs2pl : ∀ d, idx + 1 < d → s2.pL d = sfx g v d := by
      intro d hd
      show (Function.update s.pL (idx + 1) _) d = _
      rw [Function.update_noteq (by omega : d ≠ idx + 1)]
      exact hpl d (by omega)
    have hs2plj : s2.pL (idx + 1) = sfx g v (idx + 1 + 1) + g.lk (idx + 1) c := by
      show (Function.update s.pL (idx + 1) _) (idx + 1) = _
      rw [Function.update_same]
      show s.pL (idx + 1 + 1) + g.lk (idx + 1) c = _
      rw [hpl (idx + 1 + 1) (by omega), add_comm]
    have htestval : s2.pL (idx + 1) + g.maxLPSum idx = stageVal g v (idx + 1) := by
      rw [hs2plj, hcv, stageVal, Gen.maxLPSum]
      abel
    by_cases hacc : g.cut ≤ s2.pL (idx + 1) + g.maxLPSum idx
    · rw [if_pos hacc]
      set s3 : BaseState := { s2 with
        pM := Function.update s2.pM (idx + 1) (s2.pM (idx + 1 + 1) + g.massAt (idx + 1) c),
        pE := Function.update s2.pE (idx + 1) (s2.pE (idx + 1 + 1) * g.eprobAt (idx + 1) c) }
        with hs3
      have hs3c : s3.counter = s2.counter := rfl
      have hs3pl : s3.pL = s2.pL := rfl
      have hrc : (recalc g idx s3).counter = s2.counter := by
        rw [recalc_counter, hs3c]
      have hcnt : ∀ e, (recalc g idx s3).counter e = stageSucc v (idx + 1) e := by
        intro e
        rw [hrc, hs2c e, stageSucc]
        by_cases h1 : e = idx + 1
        · subst h1
          rw [if_pos rfl, if_neg (by omega : ¬ idx + 1 < idx + 1), if_pos rfl, hcv]
        · rw [if_neg h1]
          by_cases h2 : e = idx
          · subst h2
            rw [if_pos rfl, if_pos (by omega : e < e + 1)]
          · by_cases h3 : e < idx + 1
            · rw [if_neg h2, if_pos h3]
              exact hzero e (by omega)
            · rw [if_neg h2, if_neg h3, if_neg h1]
              exact habove e (by omega)
      constructor
      · intro _
        refine ⟨idx + 1, by omega, by omega, ?_, ?_, hcnt, ?_⟩
        · intro t ht htj; omega
        · rw [← htestval]; exact hacc
        · intro d
          rcases Nat.lt_or_ge idx d with hd | hd
          · rw [recalc_pL_high g idx s3 hd]
            rcases Nat.lt_or_ge (idx + 1) d with hd2 | hd2
            · have : s3.pL d = sfx g v d := by rw [hs3pl]; exact hs2pl d hd2
              rw [this]
              conv_rhs =>
                rw [funext hcnt]
              rw [sfx_stageSucc_high g v hd2]
            · have hdj : d = idx + 1 := by omega
              subst hdj
              rw [hs3pl, hs2plj]
              conv_rhs => rw [funext hcnt]
              rw [sfx_stageSucc_ge g v (le_refl (idx + 1)) (by omega),
                Finset.Ico_self, Finset.sum_empty, hcv]
              abel
          · rw [recalc_pL_le g idx s3 hd]
            have hz : ∀ e ∈ Finset.Ico d (idx + 1), g.lk e (s3.counter e) = g.lk e 0 := by
              intro e he
              have he' : e < idx + 1 := (Finset.mem_Ico.1 he).2
              rw [hs3c, hs2c e, if_neg (by omega : ¬ e = idx + 1)]
              by_cases h2 : e = idx
              · rw [if_pos h2]
              · rw [if_neg h2, hzero e (by omega)]
            rw [Finset.sum_congr rfl hz, hs3pl, hs2plj]
            conv_rhs => rw [funext hcnt]
            rw [sfx_stageSucc_ge g v (by omega : d ≤ idx + 1) (by omega), hcv]
            abel
      · intro h
        exact absurd h (by simp)
    · rw [if_neg hacc]
      have hstagefail : ¬ g.cut ≤ stageVal g v (idx + 1) := by
        rw [← htestval]; exact hacc
      have ihres := ih (idx + 1) s2 v (by omega)
        (by
          intro e he
          rw [hs2c e, if_neg (by omega : ¬ e = idx + 1)]
          by_cases h2 : e = idx
          · rw [if_pos h2]
          · rw [if_neg h2]; exact hzero e (by omega))
        (by
          intro e he
          rw [hs2c e, if_neg (by omega : ¬ e = idx + 1), if_neg (by omega : ¬ e = idx)]
          exact habove e (by omega))
        (fun d hd => hs2pl d hd)
      constructor
      · intro htrue
        obtain ⟨j, hj1, hj2, hfail, hok, hcnt, hplres⟩ := ihres.1 htrue
        refine ⟨j, by omega, hj2, ?_, hok, hcnt, hplres⟩
        intro t ht htj
        by_cases hte : t = idx + 1
        · subst hte; exact hstagefail
        · exact hfail t (by omega) htj
      · intro hfalse t ht htD
        by_cases hte : t = idx + 1
        · subst hte; exact hstagefail
        · exact ihres.2 hfalse t (by omega) htD

/-- The full behaviour of one advance of the (modelled) base generator from
a state whose prefix sums above dimension 0 are in sync with its counters:
a successful advance moves the counters to the candidate of the first stage
that reaches the cutoff, skipping only stages that fall below it, and
leaves every prefix sum in sync; an unsuccessful advance certifies that no
stage reaches the cutoff. -/
theorem advance_spec (g : Gen) (s : BaseState)
    (hD : 1 ≤ g.dimNumber)
    (hpl : ∀ d, 1 ≤ d → s.pL d = sfx g s.counter d) :
    ((advanceToNextConfiguration g s).1 = true →
      ∃ j, j < g.dimNumber ∧
        (∀ t, t < j → ¬ g.cut ≤ stageVal g s.counter t) ∧
        g.cut ≤ stageVal g s.counter j ∧
        (∀ e, (advanceToNextConfiguration g s).2.counter e = stageSucc s.counter j e) ∧
        (∀ d, (advanceToNextConfiguration g s).2.pL d
          = sfx g (advanceToNextConfiguration g s).2.counter d)) ∧
    ((advanceToNextConfiguration g s).1 = false →
      ∀ t, t < g.dimNumber → ¬ g.cut ≤ stageVal g s.counter t) := by
  rw [advanceToNextConfiguration]
  set c0 : ℤ := s.counter 0 + 1 with hc0
  set s1 : BaseState := { s with
    counter := Function.update s.counter 0 c0,
    pL := Function.update s.pL 0 (s.pL 1 + g.lk 0 c0) } with hs1def
  have hs1c : ∀ e, s1.counter e = if e = 0 then c0 else s.counter e := by
    intro e
    show (Function.update s.counter 0 c0) e = _
    by_cases h : e = 0
    · subst h; rw [Function.update_same, if_pos rfl]
    · rw [Function.update_noteq h, if_neg h]
  have hs1pl0 : s1.pL 0 = stageVal g s.counter 0 := by
    show (Function.update s.pL 0 (s.pL 1 + g.lk 0 c0)) 0 = _
    rw [Function.update_same, hpl 1 (le_refl 1), stageVal, Finset.range_zero,
      Finset.sum_empty, zero_add, hc0]
    exact add_comm _ _
  have hs1pl : ∀ d, 1 ≤ d → s1.pL d = sfx g s.counter d := by
    intro d hd
    show (Function.update s.pL 0 _) d = _
    rw [Function.update_noteq (by omega : d ≠ 0)]
    exact hpl d hd
  by_cases hacc : g.cut ≤ s1.pL 0
  · rw [if_pos hacc]
    set s1' : BaseState := { s1 with
      pM := Function.update s1.pM 0 (s1.pM 1 + g.massAt 0 c0),
      pE := Function.update s1.pE 0 (s1.pE 1 * g.eprobAt 0 c0) } with hs1'
    have hcnt : ∀ e, s1'.counter e = stageSucc s.counter 0 e := by
      intro e
      show s1.counter e = _
      rw [hs1c e, stageSucc]
      by_cases h : e = 0
      · subst h; simp [hc0]
      · simp [h]
    constructor
    · intro _
      refine ⟨0, by omega, ?_, ?_, hcnt, ?_⟩
      · intro t ht; omega
      · rw [← hs1pl0]; exact hacc
      · intro d
        show s1.pL d = sfx g s1'.counter d
        conv_rhs => rw [funext hcnt]
        rcases Nat.eq_zero_or_pos d with rfl | hd
        · rw [hs1pl0, sfx_stageSucc g s.counter (by omega : 0 < g.dimNumber)]
        · rw [hs1pl d hd, sfx_stageSucc_high g s.counter hd]
    · intro h
      exact absurd h (by simp)
  · rw [if_neg hacc]
    have hstage0 : ¬ g.cut ≤ stageVal g s.counter 0 := by rw [← hs1pl0]; exact hacc
    have hcarry := carry_spec g (g.dimNumber - 1) 0 s1 s.counter
      (by omega)
      (by intro e he; omega)
      (by intro e he; rw [hs1c e, if_neg (by omega : ¬ e = 0)])
      (fun d hd => hs1pl d (by omega))
    constructor
    · intro htrue
      obtain ⟨j, hj0, hjD, hfail, hok, hcnt, hplres⟩ := hcarry.1 htrue
      refine ⟨j, hjD, ?_, hok, hcnt, hplres⟩
      intro t ht
      rcases Nat.eq_zero_or_pos t with rfl | htpos
      · exact hstage0
      · exact hfail t (by omega) ht
    · intro hfalse t htD
      rcases Nat.eq_zero_or_pos t with rfl | htpos
      · exact hstage0
      · exact hcarry.2 hfalse t (by omega) htD

end IsoThresholdGenerator

/-! ### Joint configurations as lists, the box, and the colex order -/

theorem getD_range_map (u : ℕ → ℤ) {n e : ℕ} (h : e < n) :
    ((List.range n).map u).getD e 0 = u e := by
  have hlen : e < ((List.range n).map u).length := by simpa using h
  rw [List.getD_eq_getElem _ _ hlen]
  simp

theorem confList_getD (g : Gen) (s : BaseState) {e : ℕ} (h : e < g.dimNumber) :
    (confList g s).getD e 0 = s.counter e := getD_range_map s.counter h

theorem confList_length (g : Gen) (s : BaseState) :
    (confList g s).length = g.dimNumber := by simp [confList]

theorem jointLP_map (g : Gen) (u : ℕ → ℤ) :
    jointLP g ((List.range g.dimNumber).map u) = sfx g u 0 := by
  unfold jointLP sfx
  rw [← Finset.range_eq_Ico]
  refine Finset.sum_congr rfl fun e he => ?_
  rw [getD_range_map u (Finset.mem_range.1 he)]

theorem sum_eq_bot_of_mem {s : Finset ℕ} {f : ℕ → WithBot ℚ} {e : ℕ}
    (he : e ∈ s) (hf : f e = ⊥) : ∑ x ∈ s, f x = ⊥ := by
  rw [← Finset.add_sum_erase s f he, hf]
  exact WithBot.bot_add _

theorem cut_not_le_bot (g : Gen) : ¬ g.cut ≤ (⊥ : WithBot ℚ) :=
  WithBot.not_coe_le_bot g.Lcutoff

/-- An admissible configuration addresses every marginal table in range. -/
theorem accepted_box {g : Gen} {w : List ℤ} (hw : Accepted g w) :
    ∀ e, e < g.dimNumber →
      0 ≤ w.getD e 0 ∧ w.getD e 0 < ((g.marg e).lprobs.length : ℤ) := by
  intro e he
  refine zlookup_ne_bot fun hbot => ?_
  have : jointLP g w = ⊥ :=
    sum_eq_bot_of_mem (Finset.mem_range.2 he) hbot
  exact cut_not_le_bot g (this ▸ hw.2)

theorem colexLt_trans {D : ℕ} {u v w : List ℤ}
    (h1 : ColexLt D u v) (h2 : ColexLt D v w) : ColexLt D u w := by
  obtain ⟨j1, hj1, hlt1, hab1⟩ := h1
  obtain ⟨j2, hj2, hlt2, hab2⟩ := h2
  rcases lt_trichotomy j1 j2 with h | h | h
  · refine ⟨j2, hj2, ?_, ?_⟩
    · rw [hab1 j2 h hj2]; exact hlt2
    · intro e he1 he2
      rw [hab1 e (by omega) he2, hab2 e he1 he2]
  · subst h
    refine ⟨j1, hj1, lt_trans hlt1 hlt2, ?_⟩
    intro e he1 he2
    rw [hab1 e he1 he2, hab2 e he1 he2]
  · refine ⟨j1, hj1, ?_, ?_⟩
    · rw [← hab2 j1 h hj1]; exact hlt1
    · intro e he1 he2
      rw [hab1 e he1 he2, hab2 e (by omega) he2]

theorem ne_of_colexLt {D : ℕ} {u w : List ℤ} (h : ColexLt D u w) : u ≠ w := by
  obtain ⟨j, _, hlt, _⟩ := h
  intro he
  rw [he] at hlt
  exact lt_irrefl _ hlt

/-- A pointwise bound with one strict position yields a colex increase, at
the highest strict position. -/
theorem colexLt_of_le {D : ℕ} {u w : List ℤ}
    (hle : ∀ e, e < D → u.getD e 0 ≤ w.getD e 0)
    (hex : ∃ e, e < D ∧ u.getD e 0 < w.getD e 0) : ColexLt D u w := by
  classical
  set S : Finset ℕ := (Finset.range D).filter (fun e => u.getD e 0 ≠ w.getD e 0) with hS
  obtain ⟨e0, he0, hlt0⟩ := hex
  have hne : S.Nonempty :=
    ⟨e0, Finset.mem_filter.2 ⟨Finset.mem_range.2 he0, ne_of_lt hlt0⟩⟩
  set j := S.max' hne with hj
  have hjS : j ∈ S := S.max'_mem hne
  have hjD : j < D := Finset.mem_range.1 (Finset.mem_filter.1 hjS).1
  refine ⟨j, hjD, ?_, ?_⟩
  · exact lt_of_le_of_ne (hle j hjD) (Finset.mem_filter.1 hjS).2
  · intro e he1 he2
    by_contra hne'
    have : e ∈ S := Finset.mem_filter.2 ⟨Finset.mem_range.2 he2, hne'⟩
    exact absurd (S.le_max' e this) (by omega)

/-- A configuration colex-above `v` whose top difference with `v` sits at a
stage the walk would reject cannot beat that stage's candidate: its total
log-probability is bounded by the stage value. -/
theorem jointLP_le_stageVal (g : Gen) (hg : SortedGen g) (v : ℕ → ℤ)
    {w : List ℤ} {j : ℕ} (hj : j < g.dimNumber)
    (hvj : 0 ≤ v j + 1)
    (hdiff : v j < w.getD j 0)
    (hagree : ∀ e, j < e → e < g.dimNumber → w.getD e 0 = v e) :
    jointLP g w ≤ stageVal g v j := by
  unfold jointLP stageVal
  rw [Finset.range_eq_Ico,
    ← Finset.sum_Ico_consecutive (fun e => g.lk e (w.getD e 0))
      (Nat.zero_le j) (le_of_lt hj),
    Finset.sum_eq_sum_Ico_succ_bot hj (fun e => g.lk e (w.getD e 0))]
  have h1 : ∑ e ∈ Finset.Ico 0 j, g.lk e (w.getD e 0)
      ≤ ∑ e ∈ Finset.Ico 0 j, g.lk e 0 :=
    Finset.sum_le_sum fun e _ => zlookup_le_zero (hg.marg e) _
  have h2 : g.lk j (w.getD j 0) ≤ g.lk j (v j + 1) :=
    zlookup_anti (hg.marg j) hvj (by omega)
  have h3 : ∑ e ∈ Finset.Ico (j + 1) g.dimNumber, g.lk e (w.getD e 0)
      = sfx g v (j + 1) := by
    refine Finset.sum_congr rfl fun e he => ?_
    have h := Finset.mem_Ico.1 he
    rw [hagree e (by omega) h.2]
  rw [h3, ← add_assoc]
  exact add_le_add (add_le_add h1 h2) (le_refl _)

/-! ### The reachable states and the successor property of one advance -/

/-- The states of the base generator reachable between advances: the prefix
sums above dimension 0 are in sync with the counters, the dimension-0
counter is at least one position before its table, and the other counters
are inside or at most one past their tables (non-negative). -/
def Good (g : Gen) (s : BaseState) : Prop :=
  (∀ d, 1 ≤ d → s.pL d = sfx g s.counter d) ∧
  -1 ≤ s.counter 0 ∧ (∀ d, 1 ≤ d → 0 ≤ s.counter d)

theorem construct_counter_zero (g : Gen) :
    (IsoThresholdGenerator.construct g).counter 0 = -1 := by
  unfold IsoThresholdGenerator.construct
  dsimp only
  exact Function.update_same _ _ _

theorem construct_counter_pos (g : Gen) {e : ℕ} (he : 1 ≤ e) :
    (IsoThresholdGenerator.construct g).counter e = 0 := by
  unfold IsoThresholdGenerator.construct
  dsimp only
  rw [Function.update_noteq (by omega : e ≠ 0),
    IsoThresholdGenerator.recalc_counter]

theorem good_construct (g : Gen) (hD : 1 ≤ g.dimNumber) :
    Good g (IsoThresholdGenerator.construct g) := by
  refine ⟨?_, ?_, ?_⟩
  · intro d hd
    have hsfx : sfx g (IsoThresholdGenerator.construct g).counter d
        = ∑ e ∈ Finset.Ico d g.dimNumber, g.lk e 0 := by
      refine Finset.sum_congr rfl fun e he => ?_
      have h1 : d ≤ e := (Finset.mem_Ico.1 he).1
      rw [construct_counter_pos g (by omega : 1 ≤ e)]
    rw [hsfx]
    have hpl : (IsoThresholdGenerator.construct g).pL d
        = (IsoThresholdGenerator.recalc g (g.dimNumber - 1)
            (⟨fun _ => 0, fun _ => 0, fun _ => 0, fun _ => 1⟩ : BaseState)).pL d := by
      unfold IsoThresholdGenerator.construct
      dsimp only
    rw [hpl]
    rcases Nat.lt_or_ge (g.dimNumber - 1) d with hgt | hle
    · rw [IsoThresholdGenerator.recalc_pL_high g _ _ hgt]
      show (0 : WithBot ℚ) = _
      rw [Finset.Ico_eq_empty (by omega), Finset.sum_empty]
    · rw [IsoThresholdGenerator.recalc_pL_le g _ _ hle]
      show (0 : WithBot ℚ) + _ = _
      rw [zero_add]
      have hD1 : g.dimNumber - 1 + 1 = g.dimNumber := by omega
      rw [hD1]
  · rw [construct_counter_zero g]
  · intro d hd
    rw [construct_counter_pos g hd]

/-- A successful advance from a reachable state: the new state is
reachable, its configuration is admissible and colex-greater than the old
one, and no admissible configuration lies strictly between the two. -/
theorem advance_true_good (g : Gen) (hg : SortedGen g) (hD : 1 ≤ g.dimNumber)
    {s : BaseState} (hs : Good g s)
    (ht : (IsoThresholdGenerator.advanceToNextConfiguration g s).1 = true) :
    Good g (IsoThresholdGenerator.advanceToNextConfiguration g s).2 ∧
    Accepted g (confList g (IsoThresholdGenerator.advanceToNextConfiguration g s).2) ∧
    ColexLt g.dimNumber (confList g s)
      (confList g (IsoThresholdGenerator.advanceToNextConfiguration g s).2) ∧
    ∀ w, Accepted g w → ColexLt g.dimNumber (confList g s) w →
      w = confList g (IsoThresholdGenerator.advanceToNextConfiguration g s).2 ∨
      ColexLt g.dimNumber
        (confList g (IsoThresholdGenerator.advanceToNextConfiguration g s).2) w := by
  obtain ⟨j, hjD, hfail, hok, hcnt, hpls⟩ :=
    (IsoThresholdGenerator.advance_spec g s hD hs.1).1 ht
  set s' : BaseState := (IsoThresholdGenerator.advanceToNextConfiguration g s).2 with hs'
  have hbound : ∀ e, e < g.dimNumber →
      (confList g s').getD e 0 = stageSucc s.counter j e := by
    intro e he
    rw [confList_getD g s' he, hcnt e]
  have hgood : Good g s' := by
    refine ⟨fun d _ => hpls d, ?_, ?_⟩
    · rw [hcnt 0, stageSucc]
      by_cases h0 : 0 < j
      · rw [if_pos h0]; omega
      · have : j = 0 := by omega
        subst this
        rw [if_neg h0, if_pos rfl]
        have := hs.2.1
        omega
    · intro d hd
      rw [hcnt d, stageSucc]
      by_cases h1 : d < j
      · rw [if_pos h1]
      · rw [if_neg h1]
        by_cases h2 : d = j
        · rw [if_pos h2]
          subst h2
          rcases Nat.eq_zero_or_pos d with rfl | hdpos
          · have := hs.2.1; omega
          · have := hs.2.2 d hdpos; omega
        · rw [if_neg h2]
          exact hs.2.2 d hd
  have haccept : Accepted g (confList g s') := by
    refine ⟨confList_length g s', ?_⟩
    show g.cut ≤ jointLP g ((List.range g.dimNumber).map s'.counter)
    rw [jointLP_map, funext hcnt, sfx_stageSucc g s.counter hjD]
    exact hok
  refine ⟨hgood, haccept, ?_, ?_⟩
  · refine ⟨j, hjD, ?_, ?_⟩
    · rw [confList_getD g s hjD, hbound j hjD, stageSucc,
        if_neg (lt_irrefl j), if_pos rfl]
      omega
    · intro e he1 he2
      rw [confList_getD g s he2, hbound e he2, stageSucc,
        if_neg (by omega : ¬ e < j), if_neg (by omega : ¬ e = j)]
  · intro w hw hcol
    obtain ⟨j', hj'D, hlt, hab⟩ := hcol
    rw [confList_getD g s hj'D] at hlt
    have hab' : ∀ e, j' < e → e < g.dimNumber → w.getD e 0 = s.counter e := by
      intro e he1 he2
      rw [← hab e he1 he2, confList_getD g s he2]
    have hv'j1 : 0 ≤ s.counter j' + 1 := by
      rcases Nat.eq_zero_or_pos j' with rfl | hj'
      · have := hs.2.1; omega
      · have := hs.2.2 j' hj'; omega
    rcases lt_trichotomy j' j with hcase | hcase | hcase
    · exfalso
      have hle := jointLP_le_stageVal g hg s.counter hj'D hv'j1 hlt hab'
      exact hfail j' hcase (le_trans hw.2 hle)
    · subst hcase
      have hwj : s.counter j' + 1 ≤ w.getD j' 0 := by omega
      rcases eq_or_lt_of_le hwj with heq | hstrict
      · by_cases hall : ∀ e, e < g.dimNumber → w.getD e 0 = (confList g s').getD e 0
        · left
          have hlen : w.length = (confList g s').length := by
            rw [confList_length g s', hw.1]
          refine List.ext_getElem hlen ?_
          intro i h1 h2
          have hiD : i < g.dimNumber := by
            rw [← hw.1]; exact h1
          have := hall i hiD
          rwa [List.getD_eq_getElem _ _ h1, List.getD_eq_getElem _ _ h2] at this
        · right
          push_neg at hall
          obtain ⟨e0, he0D, he0ne⟩ := hall
          refine colexLt_of_le ?_ ⟨e0, he0D, ?_⟩
          · intro e heD
            rw [hbound e heD, stageSucc]
            by_cases h1 : e < j'
            · rw [if_pos h1]
              exact (accepted_box hw e heD).1
            · rw [if_neg h1]
              by_cases h2 : e = j'
              · rw [if_pos h2]; subst h2; omega
              · rw [if_neg h2, ← hab' e (by omega) heD]
          · have he0j : e0 < j' := by
              by_contra hc
              refine he0ne ?_
              rw [hbound e0 he0D, stageSucc, if_neg (by omega : ¬ e0 < j')]
              by_cases h2 : e0 = j'
              · rw [if_pos h2]; subst h2; omega
              · rw [if_neg h2, hab' e0 (by omega) he0D]
            have hpos : 0 ≤ w.getD e0 0 := (accepted_box hw e0 he0D).1
            rw [hbound e0 he0D, stageSucc, if_pos he0j]
            rcases eq_or_lt_of_le hpos with h | h
            · exfalso
              refine he0ne ?_
              rw [hbound e0 he0D, stageSucc, if_pos he0j, ← h]
            · exact h
      · right
        refine ⟨j', hj'D, ?_, ?_⟩
        · rw [hbound j' hj'D, stageSucc, if_neg (lt_irrefl j'), if_pos rfl]
          exact hstrict
        · intro e he1 he2
          rw [hbound e he2, stageSucc, if_neg (by omega : ¬ e < j'),
            if_neg (by omega : ¬ e = j'), hab' e he1 he2]
    · right
      refine ⟨j', hj'D, ?_, ?_⟩
      · rw [hbound j' hj'D, stageSucc, if_neg (by omega : ¬ j' < j),
          if_neg (by omega : ¬ j' = j)]
        exact hlt
      · intro e he1 he2
        rw [hbound e he2, stageSucc, if_neg (by omega : ¬ e < j),
          if_neg (by omega : ¬ e = j), hab' e he1 he2]

/-- An unsuccessful advance from a reachable state certifies that no
admissible configuration lies colex-above the current one. -/
theorem advance_false_none (g : Gen) (hg : SortedGen g) (hD : 1 ≤ g.dimNumber)
    {s : BaseState} (hs : Good g s)
    (hf : (IsoThresholdGenerator.advanceToNextConfiguration g s).1 = false) :
    ∀ w, Accepted g w → ¬ ColexLt g.dimNumber (confList g s) w := by
  intro w hw hcol
  obtain ⟨j', hj'D, hlt, hab⟩ := hcol
  rw [confList_getD g s hj'D] at hlt
  have hab' : ∀ e, j' < e → e < g.dimNumber → w.getD e 0 = s.counter e := by
    intro e he1 he2
    rw [← hab e he1 he2, confList_getD g s he2]
  have hv'j1 : 0 ≤ s.counter j' + 1 := by
    rcases Nat.eq_zero_or_pos j' with rfl | hj'
    · have := hs.2.1; omega
    · have := hs.2.2 j' hj'; omega
  have hle := jointLP_le_stageVal g hg s.counter hj'D hv'j1 hlt hab'
  exact (IsoThresholdGenerator.advance_spec g s hD hs.1).2 hf j' hj'D
    (le_trans hw.2 hle)

/-! ### The run of the base generator -/

theorem runB_succ_true (g : Gen) (n : ℕ) {s : BaseState}
    (h : (IsoThresholdGenerator.advanceToNextConfiguration g s).1 = true) :
    runB g (n + 1) s
      = (confList g (IsoThresholdGenerator.advanceToNextConfiguration g s).2 ::
          (runB g n (IsoThresholdGenerator.advanceToNextConfiguration g s).2).1,
        (runB g n (IsoThresholdGenerator.advanceToNextConfiguration g s).2).2) := by
  rw [runB]
  simp only [h, if_true]

theorem runB_succ_false (g : Gen) (n : ℕ) {s : BaseState}
    (h : (IsoThresholdGenerator.advanceToNextConfiguration g s).1 = false) :
    runB g (n + 1) s
      = ([], (IsoThresholdGenerator.advanceToNextConfiguration g s).2, true) := by
  rw [runB]
  simp only [h, Bool.false_eq_true, if_false]

/-- Soundness and completeness of a bounded run from a reachable state: it
emits only admissible configurations, in strictly increasing colex order
all above the starting configuration, and if the run reached exhaustion it
emitted every admissible configuration colex-above the start. -/
theorem runB_spec (g : Gen) (hg : SortedGen g) (hD : 1 ≤ g.dimNumber) :
    ∀ n s, Good g s →
      (∀ w ∈ (runB g n s).1, Accepted g w) ∧
      List.Pairwise (ColexLt g.dimNumber) (confList g s :: (runB g n s).1) ∧
      ((runB g n s).2.2 = true → ∀ w, Accepted g w →
        ColexLt g.dimNumber (confList g s) w → w ∈ (runB g n s).1) := by
  intro n
  induction n with
  | zero =>
    intro s hsGood
    refine ⟨?_, ?_, ?_⟩
    · intro w hw; simp [runB] at hw
    · simp [runB]
    · intro hfin; simp [runB] at hfin
  | succ n ih =>
    intro s hsGood
    by_cases hstep : (IsoThresholdGenerator.advanceToNextConfiguration g s).1 = true
    · obtain ⟨hgood', haccept', hcolex', hmin'⟩ := advance_true_good g hg hD hsGood hstep
      obtain ⟨ihacc, ihpw, ihcompl⟩ :=
        ih (IsoThresholdGenerator.advanceToNextConfiguration g s).2 hgood'
      rw [runB_succ_true g n hstep]
      refine ⟨?_, ?_, ?_⟩
      · intro w hw
        rcases List.mem_cons.1 hw with rfl | hw'
        · exact haccept'
        · exact ihacc w hw'
      · refine List.Pairwise.cons ?_ ihpw
        intro w hw
        rcases List.mem_cons.1 hw with rfl | hw'
        · exact hcolex'
        · exact colexLt_trans hcolex' (List.rel_of_pairwise_cons ihpw hw')
      · intro hfin w hw hcol
        rcases hmin' w hw hcol with rfl | hcol'
        · exact List.mem_cons_self _ _
        · exact List.mem_cons_of_mem _ (ihcompl hfin w hw hcol')
    · have hstep' : (IsoThresholdGenerator.advanceToNextConfiguration g s).1 = false :=
        Bool.not_eq_true _ ▸ (by simpa using hstep)
      rw [runB_succ_false g n hstep']
      refine ⟨?_, ?_, ?_⟩
      · intro w hw; simp at hw
      · simp
      · intro _ w hw hcol
        exact absurd hcol (advance_false_none g hg hD hsGood hstep' w hw)

theorem runB_not_finished_length (g : Gen) :
    ∀ n s, (runB g n s).2.2 = false → (runB g n s).1.length = n := by
  intro n
  induction n with
  | zero => intro s _; rfl
  | succ n ih =>
    intro s hfin
    by_cases hstep : (IsoThresholdGenerator.advanceToNextConfiguration g s).1 = true
    · rw [runB_succ_true g n hstep] at hfin ⊢
      simp only [List.length_cons]
      rw [ih _ hfin]
    · have hstep' : (IsoThresholdGenerator.advanceToNextConfiguration g s).1 = false := by
        simpa using hstep
      rw [runB_succ_false g n hstep'] at hfin
      simp at hfin

/-! ### A mixed-radix rank bounds the number of emissions -/

theorem mixedRadix_bound (a len : ℕ → ℤ) :
    ∀ n, (∀ d, d < n → 0 ≤ a d ∧ a d < len d) →
      0 ≤ ∑ d ∈ Finset.range n, a d * ∏ e ∈ Finset.range d, len e ∧
      ∑ d ∈ Finset.range n, a d * ∏ e ∈ Finset.range d, len e
        < ∏ e ∈ Finset.range n, len e := by
  intro n
  induction n with
  | zero => intro _; simp
  | succ n ih =>
    intro hb
    obtain ⟨ih0, ih1⟩ := ih (fun d hd => hb d (by omega))
    have hprod0 : 0 ≤ ∏ e ∈ Finset.range n, len e := le_of_lt (lt_of_le_of_lt ih0 ih1)
    have hba := hb n (by omega)
    constructor
    · rw [Finset.sum_range_succ]
      exact add_nonneg ih0 (mul_nonneg hba.1 hprod0)
    · rw [Finset.sum_range_succ, Finset.prod_range_succ]
      calc ∑ d ∈ Finset.range n, a d * ∏ e ∈ Finset.range d, len e
            + a n * ∏ e ∈ Finset.range n, len e
          < ∏ e ∈ Finset.range n, len e + a n * ∏ e ∈ Finset.range n, len e := by
            exact add_lt_add_right ih1 _
        _ = (a n + 1) * ∏ e ∈ Finset.range n, len e := by ring
        _ ≤ len n * ∏ e ∈ Finset.range n, len e :=
            mul_le_mul_of_nonneg_right (by omega) hprod0
        _ = (∏ e ∈ Finset.range n, len e) * len n := mul_comm _ _

theorem mixedRadix_lt (a b len : ℕ → ℤ) (n : ℕ)
    (ha : ∀ d, d < n → 0 ≤ a d ∧ a d < len d)
    (hb : ∀ d, d < n → 0 ≤ b d ∧ b d < len d)
    {j : ℕ} (hj : j < n) (hjlt : a j < b j)
    (hab : ∀ e, j < e → e < n → a e = b e) :
    ∑ d ∈ Finset.range n, a d * ∏ e ∈ Finset.range d, len e
      < ∑ d ∈ Finset.range n, b d * ∏ e ∈ Finset.range d, len e := by
  have hsplit : ∀ c : ℕ → ℤ,
      ∑ d ∈ Finset.range n, c d * ∏ e ∈ Finset.range d, len e
        = (∑ d ∈ Finset.range j, c d * ∏ e ∈ Finset.range d, len e)
          + c j * ∏ e ∈ Finset.range j, len e
          + ∑ d ∈ Finset.Ico (j + 1) n, c d * ∏ e ∈ Finset.range d, len e := by
    intro c
    rw [← Finset.sum_range_add_sum_Ico (fun d => c d * ∏ e ∈ Finset.range d, len e)
        (le_of_lt hj),
      Finset.sum_eq_sum_Ico_succ_bot hj (fun d => c d * ∏ e ∈ Finset.range d, len e)]
    ring
  rw [hsplit a, hsplit b]
  have htail : ∑ d ∈ Finset.Ico (j + 1) n, a d * ∏ e ∈ Finset.range d, len e
      = ∑ d ∈ Finset.Ico (j + 1) n, b d * ∏ e ∈ Finset.range d, len e := by
    refine Finset.sum_congr rfl fun d hd => ?_
    have h := Finset.mem_Ico.1 hd
    rw [hab d (by omega) h.2]
  rw [htail]
  refine add_lt_add_right ?_ _
  have hlow_a := mixedRadix_bound a len j (fun d hd => ha d (by omega))
  have hlow_b := mixedRadix_bound b len j (fun d hd => hb d (by omega))
  have hprod0 : 0 ≤ ∏ e ∈ Finset.range j, len e :=
    le_of_lt (lt_of_le_of_lt hlow_a.1 hlow_a.2)
  calc (∑ d ∈ Finset.range j, a d * ∏ e ∈ Finset.range d, len e)
        + a j * ∏ e ∈ Finset.range j, len e
      < (∏ e ∈ Finset.range j, len e) + a j * ∏ e ∈ Finset.range j, len e :=
        add_lt_add_right hlow_a.2 _
    _ = (a j + 1) * ∏ e ∈ Finset.range j, len e := by ring
    _ ≤ b j * ∏ e ∈ Finset.range j, len e :=
        mul_le_mul_of_nonneg_right (by omega) hprod0
    _ ≤ (∑ d ∈ Finset.range j, b d * ∏ e ∈ Finset.range d, len e)
        + b j * ∏ e ∈ Finset.range j, len e := by
        have := hlow_b.1
        omega

/-- The per-dimension table length, as an integer. -/
def tblLen (g : Gen) (d : ℕ) : ℤ := ((g.marg d).lprobs.length : ℤ)

/-- The number of joint index tuples addressing the tables, used as a fuel
bound for full runs. -/
def boxSize (g : Gen) : ℤ := ∏ e ∈ Finset.range g.dimNumber, tblLen g e

/-- The mixed-radix rank of a joint configuration inside the box. -/
def rank (g : Gen) (w : List ℤ) : ℤ :=
  ∑ d ∈ Finset.range g.dimNumber, w.getD d 0 * ∏ e ∈ Finset.range d, tblLen g e

/-- A joint index list addressing every table in range. -/
def InBox (g : Gen) (w : List ℤ) : Prop :=
  ∀ d, d < g.dimNumber → 0 ≤ w.getD d 0 ∧ w.getD d 0 < tblLen g d

theorem accepted_inBox {g : Gen} {w : List ℤ} (hw : Accepted g w) : InBox g w :=
  fun d hd => accepted_box hw d hd

theorem rank_lt_of_colexLt {g : Gen} {u w : List ℤ}
    (hu : InBox g u) (hw : InBox g w)
    (h : ColexLt g.dimNumber u w) : rank g u < rank g w := by
  obtain ⟨j, hj, hlt, hab⟩ := h
  exact mixedRadix_lt (fun d => u.getD d 0) (fun d => w.getD d 0) (tblLen g)
    g.dimNumber hu hw hj hlt hab

theorem rank_mem_Ico {g : Gen} {w : List ℤ} (hw : InBox g w) :
    rank g w ∈ Finset.Ico 0 (boxSize g) := by
  have := mixedRadix_bound (fun d => w.getD d 0) (tblLen g) g.dimNumber hw
  exact Finset.mem_Ico.2 this

/-- A strictly colex-increasing list of box configurations has at most as
many entries as the box has cells. -/
theorem length_le_boxSize (g : Gen) (E : List (List ℤ))
    (hbox : ∀ w ∈ E, InBox g w)
    (hpw : E.Pairwise (ColexLt g.dimNumber)) :
    E.length ≤ (boxSize g).toNat := by
  have hpwrank : (E.map (rank g)).Pairwise (· < ·) := by
    rw [List.pairwise_map]
    exact hpw.imp_of_mem fun ha hb h =>
      rank_lt_of_colexLt (hbox _ ha) (hbox _ hb) h
  have hnodup : (E.map (rank g)).Nodup := hpwrank.imp ne_of_lt
  have hsub : (E.map (rank g)).toFinset ⊆ Finset.Ico 0 (boxSize g) := by
    intro x hx
    rw [List.mem_toFinset] at hx
    obtain ⟨w, hwE, rfl⟩ := List.mem_map.1 hx
    exact rank_mem_Ico (hbox w hwE)
  have hcard := Finset.card_le_card hsub
  rw [List.toFinset_card_of_nodup hnodup, List.length_map] at hcard
  rw [Int.card_Ico] at hcard
  simpa using hcard

/-- Every admissible configuration is colex-above the as-constructed
current configuration (whose dimension-0 counter sits before the mode). -/
theorem colex_construct_lt (g : Gen) (hD : 1 ≤ g.dimNumber) {w : List ℤ}
    (hw : Accepted g w) :
    ColexLt g.dimNumber (confList g (IsoThresholdGenerator.construct g)) w := by
  refine colexLt_of_le ?_ ⟨0, by omega, ?_⟩
  · intro e he
    rw [confList_getD g _ he]
    rcases Nat.eq_zero_or_pos e with rfl | hpos
    · rw [construct_counter_zero g]
      have := (accepted_box hw 0 (by omega)).1
      omega
    · rw [construct_counter_pos g hpos]
      exact (accepted_box hw e he).1
  · rw [confList_getD g _ (by omega : 0 < g.dimNumber), construct_counter_zero g]
    have := (accepted_box hw 0 (by omega)).1
    omega

/-- Threshold completeness of the full run: with fuel one past the box
size, the run from construction reaches exhaustion, emits no configuration
twice, and emits exactly the admissible configurations. -/
theorem runB_construct_complete (g : Gen) (hg : SortedGen g) (hD : 1 ≤ g.dimNumber) :
    (runB g ((boxSize g).toNat + 1) (IsoThresholdGenerator.construct g)).2.2 = true ∧
    (runB g ((boxSize g).toNat + 1) (IsoThresholdGenerator.construct g)).1.Nodup ∧
    (∀ w, w ∈ (runB g ((boxSize g).toNat + 1) (IsoThresholdGenerator.construct g)).1
      ↔ Accepted g w) := by
  obtain ⟨hacc, hpw, hcompl⟩ :=
    runB_spec g hg hD ((boxSize g).toNat + 1) _ (good_construct g hD)
  have hpwE : (runB g ((boxSize g).toNat + 1)
      (IsoThresholdGenerator.construct g)).1.Pairwise (ColexLt g.dimNumber) :=
    List.Pairwise.of_cons hpw
  have hfin : (runB g ((boxSize g).toNat + 1)
      (IsoThresholdGenerator.construct g)).2.2 = true := by
    by_contra hC
    rw [Bool.not_eq_true] at hC
    have hlen := runB_not_finished_length g ((boxSize g).toNat + 1) _ hC
    have hbox : ∀ w ∈ (runB g ((boxSize g).toNat + 1)
        (IsoThresholdGenerator.construct g)).1, InBox g w :=
      fun w hwE => accepted_inBox (hacc w hwE)
    have hle := length_le_boxSize g _ hbox hpwE
    omega
  refine ⟨hfin, hpwE.imp ne_of_colexLt, fun w => ⟨hacc w, fun hw => ?_⟩⟩
  exact hcompl hfin w hw (colex_construct_lt g hD hw)

/-! ### Simulation between the base, fast and count-only walks -/

namespace IsoThresholdGenerator

theorem recalc_congr (g : Gen) (T : ℕ) :
    ∀ (s t : BaseState), s.counter = t.counter → s.pL = t.pL →
      (recalc g T s).counter = (recalc g T t).counter ∧
      (recalc g T s).pL = (recalc g T t).pL := by
  induction T with
  | zero =>
    intro s t hc hp
    refine ⟨hc, ?_⟩
    show Function.update s.pL 0 (s.pL (0 + 1) + g.lk 0 (s.counter 0))
      = Function.update t.pL 0 (t.pL (0 + 1) + g.lk 0 (t.counter 0))
    rw [hc, hp]
  | succ e ih =>
    intro s t hc hp
    refine ih (updAt g (e + 1) s) (updAt g (e + 1) t) hc ?_
    show Function.update s.pL (e + 1) (s.pL (e + 1 + 1) + g.lk (e + 1) (s.counter (e + 1)))
      = Function.update t.pL (e + 1) (t.pL (e + 1 + 1) + g.lk (e + 1) (t.counter (e + 1)))
    rw [hc, hp]

theorem carry_congr (g : Gen) (fuel : ℕ) :
    ∀ idx (s t : BaseState), s.counter = t.counter → s.pL = t.pL →
      (carry g fuel idx s).1 = (carry g fuel idx t).1 ∧
      (carry g fuel idx s).2.counter = (carry g fuel idx t).2.counter ∧
      (carry g fuel idx s).2.pL = (carry g fuel idx t).2.pL := by
  induction fuel with
  | zero =>
    intro idx s t hc hp
    exact ⟨rfl, rfl, hp⟩
  | succ fuel ih =>
    intro idx s t hc hp
    rw [carry, carry]
    set s1 : BaseState := { s with counter := Function.update s.counter idx 0 } with hs1
    set t1 : BaseState := { t with counter := Function.update t.counter idx 0 } with ht1
    have hc1 : s1.counter = t1.counter := by
      show Function.update s.counter idx 0 = Function.update t.counter idx 0
      rw [hc]
    have hcval : s1.counter (idx + 1) + 1 = t1.counter (idx + 1) + 1 := by rw [hc1]
    set s2 : BaseState := { s1 with
      counter := Function.update s1.counter (idx + 1) (s1.counter (idx + 1) + 1),
      pL := Function.update s1.pL (idx + 1)
        (s1.pL (idx + 1 + 1) + g.lk (idx + 1) (s1.counter (idx + 1) + 1)) } with hs2
    set t2 : BaseState := { t1 with
      counter := Function.update t1.counter (idx + 1) (t1.counter (idx + 1) + 1),
      pL := Function.update t1.pL (idx + 1)
        (t1.pL (idx + 1 + 1) + g.lk (idx + 1) (t1.counter (idx + 1) + 1)) } with ht2
    have hc2 : s2.counter = t2.counter := by
      show Function.update s1.counter (idx + 1) (s1.counter (idx + 1) + 1)
        = Function.update t1.counter (idx + 1) (t1.counter (idx + 1) + 1)
      rw [hc1]
    have hp2 : s2.pL = t2.pL := by
      show Function.update s1.pL (idx + 1)
          (s1.pL (idx + 1 + 1) + g.lk (idx + 1) (s1.counter (idx + 1) + 1))
        = Function.update t1.pL (idx + 1)
          (t1.pL (idx + 1 + 1) + g.lk (idx + 1) (t1.counter (idx + 1) + 1))
      show Function.update s.pL (idx + 1)
          (s.pL (idx + 1 + 1) + g.lk (idx + 1) (s1.counter (idx + 1) + 1))
        = Function.update t.pL (idx + 1)
          (t.pL (idx + 1 + 1) + g.lk (idx + 1) (t1.counter (idx + 1) + 1))
      rw [hp, hc1]
    have hcond : (g.cut ≤ s2.pL (idx + 1) + g.maxLPSum idx)
        = (g.cut ≤ t2.pL (idx + 1) + g.maxLPSum idx) := by rw [hp2]
    by_cases hacc : g.cut ≤ s2.pL (idx + 1) + g.maxLPSum idx
    · rw [if_pos hacc, if_pos (hcond ▸ hacc)]
      refine ⟨rfl, ?_⟩
      exact recalc_congr g idx _ _ hc2 hp2
    · rw [if_neg hacc, if_neg (hcond ▸ hacc)]
      exact ih (idx + 1) s2 t2 hc2 hp2

theorem carry_true_counter_zero (g : Gen) (fuel : ℕ) :
    ∀ idx s, (∀ e, e < idx → s.counter e = 0) →
      (carry g fuel idx s).1 = true →
      ∀ e, e ≤ idx → (carry g fuel idx s).2.counter e = 0 := by
  induction fuel with
  | zero => intro idx s _ h; simp [carry] at h
  | succ fuel ih =>
    intro idx s hzero htrue
    rw [carry] at htrue ⊢
    set s1 : BaseState := { s with counter := Function.update s.counter idx 0 } with hs1
    set c : ℤ := s1.counter (idx + 1) + 1 with hc
    set s2 : BaseState := { s1 with
      counter := Function.update s1.counter (idx + 1) c,
      pL := Function.update s1.pL (idx + 1) (s1.pL (idx + 1 + 1) + g.lk (idx + 1) c) }
      with hs2
    have hz2 : ∀ e, e < idx + 1 → s2.counter e = 0 := by
      intro e he
      show (Function.update s1.counter (idx + 1) c) e = 0
      rw [Function.update_noteq (by omega : e ≠ idx + 1)]
      show (Function.update s.counter idx 0) e = 0
      by_cases h2 : e = idx
      · subst h2; exact Function.update_same _ _ _
      · rw [Function.update_noteq h2]
        exact hzero e (by omega)
    by_cases hacc : g.cut ≤ s2.pL (idx + 1) + g.maxLPSum idx
    · rw [if_pos hacc] at htrue ⊢
      intro e he
      rw [recalc_counter]
      exact hz2 e (by omega)
    · rw [if_neg hacc] at htrue ⊢
      intro e he
      exact ih (idx + 1) s2 hz2 htrue e (by omega)

end IsoThresholdGenerator

/-- The simulation relation between a base-generator state and a
fast-generator state: same counters and log-probability prefix sums, with
the cached pointer one position past the dimension-0 counter. -/
def RelBF (s : BaseState) (t : FastState) : Prop :=
  t.base.counter = s.counter ∧ t.base.pL = s.pL ∧
  t.lptr = (s.counter 0 + 1).toNat ∧ -1 ≤ s.counter 0

/-- The simulation relation between a fast-generator state and a
count-only state: same counters, prefix sums and pointer position. -/
def RelFC (t : FastState) (u : CntrState) : Prop :=
  u.counter = t.base.counter ∧ u.pL = t.base.pL ∧ u.lptr = t.lptr

theorem recalcBC_agree (g : Gen) (T : ℕ) :
    ∀ (s : BaseState) (u : CntrState), u.counter = s.counter → u.pL = s.pL →
      (IsoThresholdGeneratorCntr.recalc g T u).counter
        = (IsoThresholdGenerator.recalc g T s).counter ∧
      (IsoThresholdGeneratorCntr.recalc g T u).pL
        = (IsoThresholdGenerator.recalc g T s).pL := by
  induction T with
  | zero =>
    intro s u hc hp
    refine ⟨hc, ?_⟩
    show Function.update u.pL 0 (u.pL 1 + g.lk 0 (u.counter 0))
      = Function.update s.pL 0 (s.pL (0 + 1) + g.lk 0 (s.counter 0))
    rw [hc, hp]
  | succ e ih =>
    intro s u hc hp
    refine ih (IsoThresholdGenerator.updAt g (e + 1) s)
      ({ u with pL := Function.update u.pL (e + 1) (u.pL (e + 2) + g.lk (e + 1) (u.counter (e + 1))) }) hc ?_
    show Function.update u.pL (e + 1) (u.pL (e + 2) + g.lk (e + 1) (u.counter (e + 1)))
      = Function.update s.pL (e + 1) (s.pL (e + 1 + 1) + g.lk (e + 1) (s.counter (e + 1)))
    rw [hc, hp]

theorem carryBC_agree (g : Gen) (fuel : ℕ) :
    ∀ idx (s : BaseState) (u : CntrState), u.counter = s.counter → u.pL = s.pL →
      (IsoThresholdGeneratorCntr.carry g fuel idx u).1
        = (IsoThresholdGenerator.carry g fuel idx s).1 ∧
      (IsoThresholdGeneratorCntr.carry g fuel idx u).2.counter
        = (IsoThresholdGenerator.carry g fuel idx s).2.counter ∧
      (IsoThresholdGeneratorCntr.carry g fuel idx u).2.pL
        = (IsoThresholdGenerator.carry g fuel idx s).2.pL := by
  induction fuel with
  | zero =>
    intro idx s u hc hp
    exact ⟨rfl, rfl, hp⟩
  | succ fuel ih =>
    intro idx s u hc hp
    rw [IsoThresholdGenerator.carry, IsoThresholdGeneratorCntr.carry]
    set s1 : BaseState := { s with counter := Function.update s.counter idx 0 } with hs1
    set u1 : CntrState := { u with counter := Function.update u.counter idx 0 } with hu1
    have hc1 : u1.counter = s1.counter := by
      show Function.update u.counter idx 0 = Function.update s.counter idx 0
      rw [hc]
    set s2 : BaseState := { s1 with
      counter := Function.update s1.counter (idx + 1) (s1.counter (idx + 1) + 1),
      pL := Function.update s1.pL (idx + 1)
        (s1.pL (idx + 1 + 1) + g.lk (idx + 1) (s1.counter (idx + 1) + 1)) } with hs2
    set u2 : CntrState := { u1 with
      counter := Function.update u1.counter (idx + 1) (u1.counter (idx + 1) + 1),
      pL := Function.update u1.pL (idx + 1)
        (u1.pL (idx + 1 + 1) + g.lk (idx + 1) (u1.counter (idx + 1) + 1)) } with hu2
    have hc2 : u2.counter = s2.counter := by
      show Function.update u1.counter (idx + 1) (u1.counter (idx + 1) + 1)
        = Function.update s1.counter (idx + 1) (s1.counter (idx + 1) + 1)
      rw [hc1]
    have hp2 : u2.pL = s2.pL := by
      show Function.update u.pL (idx + 1)
          (u.pL (idx + 1 + 1) + g.lk (idx + 1) (u1.counter (idx + 1) + 1))
        = Function.update s.pL (idx + 1)
          (s.pL (idx + 1 + 1) + g.lk (idx + 1) (s1.counter (idx + 1) + 1))
      rw [hp, hc1]
    have hcond : (g.cut ≤ u2.pL (idx + 1) + g.maxLPSum idx)
        = (g.cut ≤ s2.pL (idx + 1) + g.maxLPSum idx) := by rw [hp2]
    by_cases hacc : g.cut ≤ s2.pL (idx + 1) + g.maxLPSum idx
    · rw [if_pos hacc, if_pos (hcond ▸ hacc)]
      refine ⟨rfl, ?_⟩
      exact recalcBC_agree g idx _ u2 hc2 hp2
    · rw [if_neg hacc, if_neg (hcond ▸ hacc)]
      exact ih (idx + 1) s2 u2 hc2 hp2

/-- One advance of the fast generator returns the same boolean as one
advance of the base generator from a related state, and—when the advance
succeeds—the relation is preserved. -/
theorem step_relBF (g : Gen) {s : BaseState} {t : FastState} (h : RelBF s t) :
    (IsoThresholdGeneratorFast.advanceToNextConfiguration g t).1
      = (IsoThresholdGenerator.advanceToNextConfiguration g s).1 ∧
    ((IsoThresholdGenerator.advanceToNextConfiguration g s).1 = true →
      RelBF (IsoThresholdGenerator.advanceToNextConfiguration g s).2
        (IsoThresholdGeneratorFast.advanceToNextConfiguration g t).2) := by
  obtain ⟨hc, hp, hl, hge⟩ := h
  have hread : g.lk 0 ((t.lptr : ℤ)) = g.lk 0 (s.counter 0 + 1) := by
    rw [hl, Int.toNat_of_nonneg (by omega : (0:ℤ) ≤ s.counter 0 + 1)]
  rw [IsoThresholdGenerator.advanceToNextConfiguration,
    IsoThresholdGeneratorFast.advanceToNextConfiguration]
  set s1 : BaseState := { s with
    counter := Function.update s.counter 0 (s.counter 0 + 1),
    pL := Function.update s.pL 0 (s.pL 1 + g.lk 0 (s.counter 0 + 1)) } with hs1
  set b1 : BaseState := { t.base with
    counter := Function.update t.base.counter 0 (t.base.counter 0 + 1),
    pL := Function.update t.base.pL 0 (t.base.pL 1 + g.lk 0 ((t.lptr : ℤ))) } with hb1
  have hc1 : b1.counter = s1.counter := by
    show Function.update t.base.counter 0 (t.base.counter 0 + 1)
      = Function.update s.counter 0 (s.counter 0 + 1)
    rw [hc]
  have hp1 : b1.pL = s1.pL := by
    show Function.update t.base.pL 0 (t.base.pL 1 + g.lk 0 ((t.lptr : ℤ)))
      = Function.update s.pL 0 (s.pL 1 + g.lk 0 (s.counter 0 + 1))
    rw [hp, hread]
  have hcond : (g.cut ≤ b1.pL 0) = (g.cut ≤ s1.pL 0) := by rw [hp1]
  by_cases hacc : g.cut ≤ s1.pL 0
  · rw [if_pos hacc, if_pos (hcond ▸ hacc)]
    have hupd : s1.counter 0 = s.counter 0 + 1 := by
      show Function.update s.counter 0 (s.counter 0 + 1) 0 = s.counter 0 + 1
      rw [Function.update_same]
    refine ⟨rfl, fun _ => ⟨hc1, hp1, ?_, ?_⟩⟩
    · show t.lptr + 1 = (s1.counter 0 + 1).toNat
      rw [hupd, hl]
      omega
    · show -1 ≤ s1.counter 0
      rw [hupd]
      omega
  · rw [if_neg hacc, if_neg (hcond ▸ hacc)]
    obtain ⟨hbool, hcnt, hpl⟩ :=
      IsoThresholdGenerator.carry_congr g (g.dimNumber - 1) 0 b1 s1 hc1 hp1
    refine ⟨hbool, fun htrue => ?_⟩
    have hzero : (IsoThresholdGenerator.carry g (g.dimNumber - 1) 0 s1).2.counter 0 = 0 :=
      IsoThresholdGenerator.carry_true_counter_zero g (g.dimNumber - 1) 0 s1
        (fun e he => absurd he (Nat.not_lt_zero e)) htrue 0 (le_refl 0)
    refine ⟨hcnt, hpl, ?_, ?_⟩
    · show (1 : ℕ) = _
      rw [hzero]
      omega
    · rw [hzero]
      omega

/-- One advance of the count-only generator returns the same boolean as
one advance of the fast generator from a related state, and—when the
advance succeeds—the relation is preserved. -/
theorem step_relFC (g : Gen) {t : FastState} {u : CntrState} (h : RelFC t u) :
    (IsoThresholdGeneratorCntr.advanceToNextConfiguration g u).1
      = (IsoThresholdGeneratorFast.advanceToNextConfiguration g t).1 ∧
    ((IsoThresholdGeneratorFast.advanceToNextConfiguration g t).1 = true →
      RelFC (IsoThresholdGeneratorFast.advanceToNextConfiguration g t).2
        (IsoThresholdGeneratorCntr.advanceToNextConfiguration g u).2) := by
  obtain ⟨hc, hp, hl⟩ := h
  rw [IsoThresholdGeneratorFast.advanceToNextConfiguration,
    IsoThresholdGeneratorCntr.advanceToNextConfiguration]
  set b1 : BaseState := { t.base with
    counter := Function.update t.base.counter 0 (t.base.counter 0 + 1),
    pL := Function.update t.base.pL 0 (t.base.pL 1 + g.lk 0 ((t.lptr : ℤ))) } with hb1
  set u1 : CntrState := { u with
    counter := Function.update u.counter 0 (u.counter 0 + 1),
    pL := Function.update u.pL 0 (u.pL 1 + g.lk 0 ((u.lptr : ℤ))) } with hu1
  have hc1 : u1.counter = b1.counter := by
    show Function.update u.counter 0 (u.counter 0 + 1)
      = Function.update t.base.counter 0 (t.base.counter 0 + 1)
    rw [hc]
  have hp1 : u1.pL = b1.pL := by
    show Function.update u.pL 0 (u.pL 1 + g.lk 0 ((u.lptr : ℤ)))
      = Function.update t.base.pL 0 (t.base.pL 1 + g.lk 0 ((t.lptr : ℤ)))
    rw [hp, hl]
  have hcond : (g.cut ≤ u1.pL 0) = (g.cut ≤ b1.pL 0) := by rw [hp1]
  by_cases hacc : g.cut ≤ b1.pL 0
  · rw [if_pos hacc, if_pos (hcond ▸ hacc)]
    exact ⟨rfl, fun _ => ⟨hc1, hp1, by rw [hl]⟩⟩
  · rw [if_neg hacc, if_neg (hcond ▸ hacc)]
    obtain ⟨hbool, hcnt, hpl⟩ := carryBC_agree g (g.dimNumber - 1) 0 b1 u1 hc1 hp1
    exact ⟨hbool, fun _ => ⟨hcnt, hpl, rfl⟩⟩

theorem boolsB_succ_true (g : Gen) (n : ℕ) {s : BaseState}
    (h : (IsoThresholdGenerator.advanceToNextConfiguration g s).1 = true) :
    boolsB g (n + 1) s
      = true :: boolsB g n (IsoThresholdGenerator.advanceToNextConfiguration g s).2 := by
  rw [boolsB]
  simp only [h, if_true]

theorem boolsB_succ_false (g : Gen) (n : ℕ) {s : BaseState}
    (h : (IsoThresholdGenerator.advanceToNextConfiguration g s).1 = false) :
    boolsB g (n + 1) s = [false] := by
  rw [boolsB]
  simp only [h, Bool.false_eq_true, if_false]

theorem boolsF_succ_true (g : Gen) (n : ℕ) {t : FastState}
    (h : (IsoThresholdGeneratorFast.advanceToNextConfiguration g t).1 = true) :
    boolsF g (n + 1) t
      = true :: boolsF g n (IsoThresholdGeneratorFast.advanceToNextConfiguration g t).2 := by
  rw [boolsF]
  simp only [h, if_true]

theorem boolsF_succ_false (g : Gen) (n : ℕ) {t : FastState}
    (h : (IsoThresholdGeneratorFast.advanceToNextConfiguration g t).1 = false) :
    boolsF g (n + 1) t = [false] := by
  rw [boolsF]
  simp only [h, Bool.false_eq_true, if_false]

theorem boolsC_succ_true (g : Gen) (n : ℕ) {u : CntrState}
    (h : (IsoThresholdGeneratorCntr.advanceToNextConfiguration g u).1 = true) :
    boolsC g (n + 1) u
      = true :: boolsC g n (IsoThresholdGeneratorCntr.advanceToNextConfiguration g u).2 := by
  rw [boolsC]
  simp only [h, if_true]

theorem boolsC_succ_false (g : Gen) (n : ℕ) {u : CntrState}
    (h : (IsoThresholdGeneratorCntr.advanceToNextConfiguration g u).1 = false) :
    boolsC g (n + 1) u = [false] := by
  rw [boolsC]
  simp only [h, Bool.false_eq_true, if_false]

theorem boolsBF_eq (g : Gen) :
    ∀ n (s : BaseState) (t : FastState), RelBF s t →
      boolsF g n t = boolsB g n s := by
  intro n
  induction n with
  | zero => intro s t _; rfl
  | succ n ih =>
    intro s t h
    obtain ⟨hbool, hrel⟩ := step_relBF g h
    by_cases hstep : (IsoThresholdGenerator.advanceToNextConfiguration g s).1 = true
    · rw [boolsB_succ_true g n hstep, boolsF_succ_true g n (hbool.trans hstep),
        ih _ _ (hrel hstep)]
    · have hstep' : (IsoThresholdGenerator.advanceToNextConfiguration g s).1 = false := by
        simpa using hstep
      rw [boolsB_succ_false g n hstep', boolsF_succ_false g n (hbool.trans hstep')]

theorem boolsFC_eq (g : Gen) :
    ∀ n (t : FastState) (u : CntrState), RelFC t u →
      boolsC g n u = boolsF g n t := by
  intro n
  induction n with
  | zero => intro t u _; rfl
  | succ n ih =>
    intro t u h
    obtain ⟨hbool, hrel⟩ := step_relFC g h
    by_cases hstep : (IsoThresholdGeneratorFast.advanceToNextConfiguration g t).1 = true
    · rw [boolsF_succ_true g n hstep, boolsC_succ_true g n (hbool.trans hstep),
        ih _ _ (hrel hstep)]
    · have hstep' : (IsoThresholdGeneratorFast.advanceToNextConfiguration g t).1 = false := by
        simpa using hstep
      rw [boolsF_succ_false g n hstep', boolsC_succ_false g n (hbool.trans hstep')]

theorem relBF_construct (g : Gen) :
    RelBF (IsoThresholdGenerator.construct g) (IsoThresholdGeneratorFast.construct g) := by
  refine ⟨rfl, rfl, ?_, ?_⟩
  · show (0 : ℕ) = ((IsoThresholdGenerator.construct g).counter 0 + 1).toNat
    rw [construct_counter_zero g]
    decide
  · rw [construct_counter_zero g]

theorem relFC_construct (g : Gen) :
    RelFC (IsoThresholdGeneratorFast.construct g) (IsoThresholdGeneratorCntr.construct g) :=
  ⟨rfl, rfl, rfl⟩

/-! ### The threshold bound of the fast generator -/

/-- A successful advance of the fast generator leaves `partialLProbs[0]` at
or above the cutoff, on the hot path by the test itself and after a carry
by the residual-max bound that `recalc` rebuilds exactly. -/
theorem fast_advance_cut (g : Gen) (t : FastState)
    (h : (IsoThresholdGeneratorFast.advanceToNextConfiguration g t).1 = true) :
    g.cut ≤ (IsoThresholdGeneratorFast.advanceToNextConfiguration g t).2.base.pL 0 := by
  rw [IsoThresholdGeneratorFast.advanceToNextConfiguration] at h ⊢
  set b1 : BaseState := { t.base with
    counter := Function.update t.base.counter 0 (t.base.counter 0 + 1),
    pL := Function.update t.base.pL 0 (t.base.pL 1 + g.lk 0 ((t.lptr : ℤ))) } with hb1
  by_cases hacc : g.cut ≤ b1.pL 0
  · rw [if_pos hacc] at h ⊢
    exact hacc
  · rw [if_neg hacc] at h ⊢
    exact IsoThresholdGenerator.carry_true_cut g (g.dimNumber - 1) 0 b1
      (fun e he => absurd he (Nat.not_lt_zero e)) h

/-! ### Configuration signatures -/

/-- Well-formed marginal tables: the configuration array parallels the
log-probability array and every stored configuration has one entry per
isotope of its element. -/
def WFGen (g : Gen) : Prop :=
  ∀ d, d < g.dimNumber →
    (g.marg d).confs.length = (g.marg d).lprobs.length ∧
    ∀ c ∈ (g.marg d).confs, c.length = (g.marg d).k

instance (g : Gen) : Decidable (WFGen g) := by
  unfold WFGen; infer_instance

theorem readInts_eq_self {c : List ℤ} {k : ℕ} (h : c.length = k) :
    (List.range k).map (fun i => c.getD i 0) = c := by
  refine List.ext_getElem (by simpa using h.symm) ?_
  intro i h1 h2
  have hik : i < k := by simpa using h1
  rw [List.getElem_map, List.getElem_range, List.getD_eq_getElem c 0 h2]

theorem flatMap_congr {α β : Type} (l : List α) (f f' : α → List β)
    (h : ∀ a ∈ l, f a = f' a) : l.flatMap f = l.flatMap f' := by
  induction l with
  | nil => rfl
  | cons a l ih =>
    rw [List.flatMap_cons, List.flatMap_cons, h a (List.mem_cons_self a l),
      ih fun b hb => h b (List.mem_cons_of_mem a hb)]

theorem sum_list_range (f : ℕ → ℕ) : ∀ n,
    ((List.range n).map f).sum = ∑ i ∈ Finset.range n, f i := by
  intro n
  induction n with
  | zero => rfl
  | succ n ih =>
    rw [List.range_succ, List.map_append, List.sum_append, Finset.sum_range_succ, ih]
    simp

/-- After a successful advance from a reachable state of a well-formed
generator, the base `get_conf_signature` writes exactly the concatenation
of the stored configuration vectors selected by the counters, a total of
sum-over-elements `k` integers. -/
theorem base_sig_spec (g : Gen) (hg : SortedGen g) (hwf : WFGen g)
    (hD : 1 ≤ g.dimNumber) {s : BaseState} (hs : Good g s)
    (ht : (IsoThresholdGenerator.advanceToNextConfiguration g s).1 = true) :
    IsoThresholdGenerator.get_conf_signature g
        (IsoThresholdGenerator.advanceToNextConfiguration g s).2
      = (List.range g.dimNumber).flatMap
          (fun d => (g.marg d).confs.getD
            (((IsoThresholdGenerator.advanceToNextConfiguration g s).2.counter d).toNat) []) ∧
    (IsoThresholdGenerator.get_conf_signature g
        (IsoThresholdGenerator.advanceToNextConfiguration g s).2).length
      = ∑ d ∈ Finset.range g.dimNumber, (g.marg d).k := by
  obtain ⟨hgood, haccept, _, _⟩ := advance_true_good g hg hD hs ht
  set s' : BaseState := (IsoThresholdGenerator.advanceToNextConfiguration g s).2 with hs'
  have hbox : ∀ d, d < g.dimNumber →
      ((g.marg d).confs.getD (s'.counter d).toNat []).length = (g.marg d).k := by
    intro d hd
    have hb := accepted_box haccept d hd
    rw [confList_getD g s' hd] at hb
    have hlen : (s'.counter d).toNat < (g.marg d).confs.length := by
      rw [(hwf d hd).1]
      omega
    rw [List.getD_eq_getElem _ _ hlen]
    exact (hwf d hd).2 _ (List.getElem_mem hlen)
  constructor
  · refine flatMap_congr _ _ _ fun d hd => ?_
    have hdD : d < g.dimNumber := List.mem_range.1 hd
    exact readInts_eq_self (hbox d hdD)
  · rw [IsoThresholdGenerator.get_conf_signature, List.length_flatMap]
    have hmap : List.map
        (List.length ∘ fun d =>
          List.map (fun i => ((g.marg d).confs.getD (s'.counter d).toNat []).getD i 0)
            (List.range (g.marg d).k))
        (List.range g.dimNumber)
        = (List.range g.dimNumber).map (fun d => (g.marg d).k) := by
      refine List.map_congr_left fun d hd => ?_
      simp
    rw [hmap, sum_list_range]

/-! ### Rounding bias of the two accumulation passes -/

theorem fold_tz_bias (ops : FloatOps)
    (hTZ : ∀ a b : ℚ, a + b ≤ 0 →
      a + b ≤ ops.fadd RoundMode.towardZero a b ∧ ops.fadd RoundMode.towardZero a b ≤ 0)
    (hmlf : ∀ c : ℤ, ops.mlf RoundMode.towardZero c ≤ 0) :
    ∀ (l : List ℤ) (r : ℚ), r ≤ 0 →
      (l.map (ops.mlf RoundMode.towardZero)).sum + r ≤
        l.foldl (fun a c => ops.fadd RoundMode.towardZero a (ops.mlf RoundMode.towardZero c)) r ∧
      l.foldl (fun a c => ops.fadd RoundMode.towardZero a (ops.mlf RoundMode.towardZero c)) r ≤ 0 := by
  intro l
  induction l with
  | nil => intro r hr; exact ⟨by simp, by simpa using hr⟩
  | cons c l ih =>
    intro r hr
    have hsum : r + ops.mlf RoundMode.towardZero c ≤ 0 :=
      add_nonpos hr (hmlf c)
    obtain ⟨hlo, hhi⟩ := hTZ r (ops.mlf RoundMode.towardZero c) hsum
    obtain ⟨ih1, ih2⟩ := ih (ops.fadd RoundMode.towardZero r (ops.mlf RoundMode.towardZero c)) hhi
    refine ⟨?_, ih2⟩
    rw [List.foldl_cons]
    calc ((c :: l).map (ops.mlf RoundMode.towardZero)).sum + r
        = (l.map (ops.mlf RoundMode.towardZero)).sum
            + (r + ops.mlf RoundMode.towardZero c) := by
          rw [List.map_cons, List.sum_cons]; ring
      _ ≤ (l.map (ops.mlf RoundMode.towardZero)).sum
            + ops.fadd RoundMode.towardZero r (ops.mlf RoundMode.towardZero c) :=
          add_le_add_left hlo _
      _ ≤ _ := ih1

theorem fold_up_bias (ops : FloatOps)
    (hUP : ∀ a b : ℚ, a + b ≤ ops.fadd RoundMode.upward a b)
    (hUPm : ∀ (c : ℤ) (p : ℚ), (c : ℚ) * p ≤ ops.fmul RoundMode.upward c p) :
    ∀ (l : List (ℤ × ℚ)) (r : ℚ),
      (l.map (fun cp => (cp.1 : ℚ) * cp.2)).sum + r ≤
        l.foldl (fun a cp => ops.fadd RoundMode.upward a (ops.fmul RoundMode.upward cp.1 cp.2)) r := by
  intro l
  induction l with
  | nil => intro r; simp
  | cons cp l ih =>
    intro r
    rw [List.foldl_cons]
    calc ((cp :: l).map (fun q => (q.1 : ℚ) * q.2)).sum + r
        = (l.map (fun q => (q.1 : ℚ) * q.2)).sum + ((cp.1 : ℚ) * cp.2 + r) := by
          rw [List.map_cons, List.sum_cons]; ring
      _ ≤ (l.map (fun q => (q.1 : ℚ) * q.2)).sum
            + (ops.fmul RoundMode.upward cp.1 cp.2 + r) :=
          add_le_add_left (add_le_add_right (hUPm cp.1 cp.2) r) _
      _ = (l.map (fun q => (q.1 : ℚ) * q.2)).sum
            + (r + ops.fmul RoundMode.upward cp.1 cp.2) := by ring
      _ ≤ (l.map (fun q => (q.1 : ℚ) * q.2)).sum
            + ops.fadd RoundMode.upward r (ops.fmul RoundMode.upward cp.1 cp.2) :=
          add_le_add_left (hUP r _) _
      _ ≤ _ := ih _

/-! ### Restoration of the ordered generator's configuration vector -/

theorem set_getD_self {l : List ℤ} {n : ℕ} (h : n < l.length) :
    l.set n (l.getD n 0) = l := by
  refine List.ext_getElem (by simp) ?_
  intro i h1 h2
  rw [List.getElem_set]
  by_cases hin : n = i
  · subst hin
    rw [if_pos rfl, List.getD_eq_getElem _ _ h]
  · rw [if_neg hin]

theorem set_dec_inc (l : List ℤ) (n : ℕ) :
    (l.set n (l.getD n 0 - 1)).set n
      ((l.set n (l.getD n 0 - 1)).getD n 0 + 1) = l := by
  by_cases hn : n < l.length
  · have hlen : n < (l.set n (l.getD n 0 - 1)).length := by simpa using hn
    have hgd : (l.set n (l.getD n 0 - 1)).getD n 0 = l.getD n 0 - 1 := by
      rw [List.getD_eq_getElem _ _ hlen, List.getElem_set, if_pos rfl]
    rw [hgd, List.set_set, sub_add_cancel, set_getD_self hn]
  · have hle : l.length ≤ n := by omega
    rw [List.set_eq_of_length_le hle, List.set_eq_of_length_le hle]

/-- The ordered generator's signature routine restores the configuration
vector it temporarily decremented, so it is observationally pure and a
repeated call writes the same buffer. -/
theorem ordered_sig_pure (dimNumber : ℕ) (isotopeNumbers : ℕ → ℕ)
    (marginalConfs : ℕ → ℤ → List ℤ) (topConf : List ℤ) (ccount : ℤ) :
    (IsoOrderedGenerator.get_conf_signature dimNumber isotopeNumbers marginalConfs
      topConf ccount).2 = topConf ∧
    (IsoOrderedGenerator.get_conf_signature dimNumber isotopeNumbers marginalConfs
      (IsoOrderedGenerator.get_conf_signature dimNumber isotopeNumbers marginalConfs
        topConf ccount).2 ccount).1
      = (IsoOrderedGenerator.get_conf_signature dimNumber isotopeNumbers marginalConfs
        topConf ccount).1 := by
  have hrestore : (IsoOrderedGenerator.get_conf_signature dimNumber isotopeNumbers
      marginalConfs topConf ccount).2 = topConf := by
    rw [IsoOrderedGenerator.get_conf_signature]
    by_cases hc : 0 ≤ ccount
    · simp only [if_pos hc]
      exact set_dec_inc topConf ccount.toNat
    · simp only [if_neg hc]
  exact ⟨hrestore, by rw [hrestore]⟩

/-! ### Concrete instances -/

/-- A one-element, two-configuration instance: sorted log-probabilities 0
and -1, masses 12 and 13, plain probabilities 1 and 1/2, cutoff -2 (both
configurations admissible). -/
def gEx1 : Gen := ⟨1, [⟨2, [0, -1], [12, 13], [1, 1/2], [[1, 0], [0, 1]]⟩], -2⟩

/-- A two-element instance with per-element tables of two sorted
configurations each and cutoff -5, admitting three of the four joint
configurations. -/
def gEx2 : Gen :=
  ⟨2, [⟨2, [0, -3], [12, 13], [1, 1/2], [[1, 0], [0, 1]]⟩,
       ⟨2, [0, -4], [1, 2], [1, 1/3], [[2, 0], [1, 1]]⟩], -5⟩

/-- A one-element molecule description used for the constructor claims. -/
def isoEx : IsoDescr := ⟨1, [⟨2, [0, -1], [12, 13], [1, 1/2], [[1, 0], [0, 1]]⟩], 0⟩

/-- The exact-arithmetic instantiation of the floating-point primitives,
which satisfies all the rounding-direction hypotheses. -/
def exactOps : FloatOps :=
  ⟨fun _ a b => a + b, fun _ c p => (c : ℚ) * p, fun _ _ => 0⟩

/-! ### The claims -/

/-- Claim C1 (code-bug evidence): on a concrete one-element input the
first advance succeeds in both the base and the fast threshold generator
and both report the same log-probability, but the fast generator reports
the mass and plain probability of marginal entry 1 (13 and 1/2) while the
base generator reports those of entry 0 (12 and 1), the entry its counter
and log-probability designate: the fast hot path increments `mass_ptr` and
`exp_ptr` before dereferencing them (`isoSpec++.h` lines 359-368), so the
two generators are not functionally identical. -/
theorem claim_C1_fast_mass_divergence :
    (IsoThresholdGenerator.advanceToNextConfiguration gEx1
      (IsoThresholdGenerator.construct gEx1)).1 = true ∧
    (IsoThresholdGeneratorFast.advanceToNextConfiguration gEx1
      (IsoThresholdGeneratorFast.construct gEx1)).1 = true ∧
    (IsoThresholdGeneratorFast.advanceToNextConfiguration gEx1
      (IsoThresholdGeneratorFast.construct gEx1)).2.base.pL 0
      = (IsoThresholdGenerator.advanceToNextConfiguration gEx1
          (IsoThresholdGenerator.construct gEx1)).2.pL 0 ∧
    (IsoThresholdGenerator.advanceToNextConfiguration gEx1
      (IsoThresholdGenerator.construct gEx1)).2.pM 0 = 12 ∧
    (IsoThresholdGeneratorFast.advanceToNextConfiguration gEx1
      (IsoThresholdGeneratorFast.construct gEx1)).2.base.pM 0 = 13 ∧
    (IsoThresholdGenerator.advanceToNextConfiguration gEx1
      (IsoThresholdGenerator.construct gEx1)).2.pE 0 = 1 ∧
    (IsoThresholdGeneratorFast.advanceToNextConfiguration gEx1
      (IsoThresholdGeneratorFast.construct gEx1)).2.base.pE 0 = 1 / 2 := by
  refine ⟨?_, ?_, ?_, ?_, ?_, ?_, ?_⟩ <;>
    simp [IsoThresholdGenerator.advanceToNextConfiguration,
      IsoThresholdGeneratorFast.advanceToNextConfiguration,
      IsoThresholdGenerator.construct, IsoThresholdGeneratorFast.construct,
      IsoThresholdGenerator.recalc, IsoThresholdGenerator.updAt, Gen.lk, Gen.cut,
      zlookup, Gen.marg, Gen.massAt, Gen.eprobAt, gEx1, Function.update]

/-- Claim C2 (counterexample): after a successful advance of the fast
generator on a concrete two-element input, its `get_conf_signature` writes
a buffer of 0 integers — nothing at all — while the sum-over-elements `k`
the claim requires of every threshold-generator variant is 4. -/
theorem claim_C2_counterexample :
    (IsoThresholdGeneratorFast.advanceToNextConfiguration gEx2
      (IsoThresholdGeneratorFast.construct gEx2)).1 = true ∧
    IsoThresholdGeneratorFast.get_conf_signature gEx2
      (IsoThresholdGeneratorFast.advanceToNextConfiguration gEx2
        (IsoThresholdGeneratorFast.construct gEx2)).2 = [] ∧
    (IsoThresholdGeneratorFast.get_conf_signature gEx2
      (IsoThresholdGeneratorFast.advanceToNextConfiguration gEx2
        (IsoThresholdGeneratorFast.construct gEx2)).2).length = 0 ∧
    (∑ d ∈ Finset.range gEx2.dimNumber, (gEx2.marg d).k) = 4 := by
  refine ⟨?_, rfl, rfl, by decide⟩
  simp [IsoThresholdGeneratorFast.advanceToNextConfiguration,
    IsoThresholdGenerator.construct, IsoThresholdGeneratorFast.construct,
    IsoThresholdGenerator.recalc, IsoThresholdGenerator.updAt, Gen.lk, Gen.cut,
    zlookup, Gen.marg, Gen.massAt, Gen.eprobAt, gEx2, Function.update]

/-- Claim C2 (amended): after every successful advance of the base
threshold generator from a reachable state of a well-formed sorted
generator, `get_conf_signature` writes exactly the concatenation over
element slots of the per-isotope atom-count vector of the current
configuration, a total of sum-over-elements `k` integers; the fast and
count-only variants' overrides write nothing. -/
theorem claim_C2_amended (g : Gen) (hg : SortedGen g) (hwf : WFGen g)
    (hD : 1 ≤ g.dimNumber) {s : BaseState} (hs : Good g s)
    (ht : (IsoThresholdGenerator.advanceToNextConfiguration g s).1 = true) :
    IsoThresholdGenerator.get_conf_signature g
        (IsoThresholdGenerator.advanceToNextConfiguration g s).2
      = (List.range g.dimNumber).flatMap
          (fun d => (g.marg d).confs.getD
            (((IsoThresholdGenerator.advanceToNextConfiguration g s).2.counter d).toNat) []) ∧
    (IsoThresholdGenerator.get_conf_signature g
        (IsoThresholdGenerator.advanceToNextConfiguration g s).2).length
      = (∑ d ∈ Finset.range g.dimNumber, (g.marg d).k) ∧
    (∀ (g' : Gen) (t : FastState),
      IsoThresholdGeneratorFast.get_conf_signature g' t = []) ∧
    (∀ (g' : Gen) (u : CntrState),
      IsoThresholdGeneratorCntr.get_conf_signature g' u = []) := by
  obtain ⟨h1, h2⟩ := base_sig_spec g hg hwf hD hs ht
  exact ⟨h1, h2, fun _ _ => rfl, fun _ _ => rfl⟩

/-- Witness for claim C2's amended theorem at the concrete two-element
instance: the first advance emits a configuration whose base signature has
the full length. -/
theorem claim_C2_witness :
    (IsoThresholdGenerator.get_conf_signature gEx2
      (IsoThresholdGenerator.advanceToNextConfiguration gEx2
        (IsoThresholdGenerator.construct gEx2)).2).length
      = (∑ d ∈ Finset.range gEx2.dimNumber, (gEx2.marg d).k) :=
  (claim_C2_amended gEx2 (by decide) (by decide) (by decide)
    (good_construct gEx2 (by decide))
    (by simp [IsoThresholdGenerator.advanceToNextConfiguration,
      IsoThresholdGenerator.construct, IsoThresholdGenerator.recalc,
      IsoThresholdGenerator.updAt, Gen.lk, Gen.cut, zlookup, Gen.marg,
      Gen.massAt, Gen.eprobAt, gEx2, Function.update])).2.1

/-- Claim C3: every successful `advanceToNextConfiguration` of the fast
threshold generator leaves `partialLProbs[0]` at or above `Lcutoff` — no
emitted configuration falls below the logarithmic threshold, including the
configurations emitted immediately after an accepted carry, whose prefix
sums `recalc` rebuilds to exactly the tested residual-max bound. -/
theorem claim_C3_threshold_bound (g : Gen) (t : FastState)
    (h : (IsoThresholdGeneratorFast.advanceToNextConfiguration g t).1 = true) :
    g.cut ≤ (IsoThresholdGeneratorFast.advanceToNextConfiguration g t).2.base.pL 0 :=
  fast_advance_cut g t h

/-- Witness for claim C3 at the concrete one-element instance. -/
theorem claim_C3_witness :
    (IsoThresholdGeneratorFast.advanceToNextConfiguration gEx1
      (IsoThresholdGeneratorFast.construct gEx1)).1 = true ∧
    gEx1.cut ≤ (IsoThresholdGeneratorFast.advanceToNextConfiguration gEx1
      (IsoThresholdGeneratorFast.construct gEx1)).2.base.pL 0 := by
  have hstep : (IsoThresholdGeneratorFast.advanceToNextConfiguration gEx1
      (IsoThresholdGeneratorFast.construct gEx1)).1 = true := by
    simp [IsoThresholdGeneratorFast.advanceToNextConfiguration,
      IsoThresholdGenerator.construct, IsoThresholdGeneratorFast.construct,
      IsoThresholdGenerator.recalc, IsoThresholdGenerator.updAt, Gen.lk, Gen.cut,
      zlookup, Gen.marg, Gen.massAt, Gen.eprobAt, gEx1, Function.update]
  exact ⟨hstep, claim_C3_threshold_bound gEx1 _ hstep⟩

/-- Claim C4: run from construction with fuel one past the size of the
joint index space, the threshold generator reaches exhaustion, emits no
joint configuration twice, and emits exactly the set of joint
configurations whose total log-probability reaches the cutoff; in
particular the all-modes configuration is emitted whenever it reaches the
cutoff. -/
theorem claim_C4_threshold_completeness (g : Gen) (hg : SortedGen g)
    (hD : 1 ≤ g.dimNumber) :
    (runB g ((boxSize g).toNat + 1) (IsoThresholdGenerator.construct g)).2.2 = true ∧
    (runB g ((boxSize g).toNat + 1) (IsoThresholdGenerator.construct g)).1.Nodup ∧
    (∀ w, w ∈ (runB g ((boxSize g).toNat + 1)
      (IsoThresholdGenerator.construct g)).1 ↔ Accepted g w) ∧
    (g.cut ≤ jointLP g (List.replicate g.dimNumber 0) →
      List.replicate g.dimNumber 0
        ∈ (runB g ((boxSize g).toNat + 1) (IsoThresholdGenerator.construct g)).1) := by
  obtain ⟨h1, h2, h3⟩ := runB_construct_complete g hg hD
  exact ⟨h1, h2, h3, fun hmode =>
    (h3 _).2 ⟨List.length_replicate _ _, hmode⟩⟩

/-- Witness for claim C4 at the concrete two-element instance. -/
theorem claim_C4_witness :
    (runB gEx2 ((boxSize gEx2).toNat + 1)
      (IsoThresholdGenerator.construct gEx2)).2.2 = true ∧
    (runB gEx2 ((boxSize gEx2).toNat + 1)
      (IsoThresholdGenerator.construct gEx2)).1.Nodup ∧
    ([0, 0] ∈ (runB gEx2 ((boxSize gEx2).toNat + 1)
      (IsoThresholdGenerator.construct gEx2)).1 ↔ Accepted gEx2 [0, 0]) := by
  have h := claim_C4_threshold_completeness gEx2 (by decide) (by decide)
  exact ⟨h.1, h.2.1, h.2.2.1 [0, 0]⟩

/-- Claim C5: `unnormalized_logProb` accumulates the `minuslogFactorial`
terms in round-toward-zero mode, then the `conf[i] * logProbs[i]` terms in
round-upward mode, and restores the entry rounding mode before returning;
under the rounding-direction hypotheses (toward-zero on non-positive sums
and upward rounding never decrease a result, and `minuslogFactorial` is
non-positive) the returned value is an upper bound on the unrounded sum of
the accumulated terms. -/
theorem claim_C5_rounding_regime (ops : FloatOps) (conf : List ℤ)
    (logProbs : List ℚ) (entryMode : RoundMode)
    (hTZ : ∀ a b : ℚ, a + b ≤ 0 →
      a + b ≤ ops.fadd RoundMode.towardZero a b ∧
        ops.fadd RoundMode.towardZero a b ≤ 0)
    (hUP : ∀ a b : ℚ, a + b ≤ ops.fadd RoundMode.upward a b)
    (hUPm : ∀ (c : ℤ) (p : ℚ), (c : ℚ) * p ≤ ops.fmul RoundMode.upward c p)
    (hmlf : ∀ c : ℤ, ops.mlf RoundMode.towardZero c ≤ 0) :
    (unnormalized_logProb ops conf logProbs entryMode).2 = entryMode ∧
    (unnormalized_logProb ops conf logProbs entryMode).1
      = (conf.zip logProbs).foldl
          (fun a cp => ops.fadd RoundMode.upward a (ops.fmul RoundMode.upward cp.1 cp.2))
          (conf.foldl
            (fun a c => ops.fadd RoundMode.towardZero a (ops.mlf RoundMode.towardZero c)) 0) ∧
    (conf.map (ops.mlf RoundMode.towardZero)).sum
        + ((conf.zip logProbs).map (fun cp => (cp.1 : ℚ) * cp.2)).sum
      ≤ (unnormalized_logProb ops conf logProbs entryMode).1 := by
  refine ⟨rfl, rfl, ?_⟩
  obtain ⟨h1, _⟩ := fold_tz_bias ops hTZ hmlf conf 0 le_rfl
  have h1' : (conf.map (ops.mlf RoundMode.towardZero)).sum
      ≤ conf.foldl
        (fun a c => ops.fadd RoundMode.towardZero a (ops.mlf RoundMode.towardZero c)) 0 := by
    simpa using h1
  have h2 := fold_up_bias ops hUP hUPm (conf.zip logProbs)
    (conf.foldl
      (fun a c => ops.fadd RoundMode.towardZero a (ops.mlf RoundMode.towardZero c)) 0)
  calc (conf.map (ops.mlf RoundMode.towardZero)).sum
        + ((conf.zip logProbs).map (fun cp => (cp.1 : ℚ) * cp.2)).sum
      ≤ ((conf.zip logProbs).map (fun cp => (cp.1 : ℚ) * cp.2)).sum
        + conf.foldl
          (fun a c => ops.fadd RoundMode.towardZero a (ops.mlf RoundMode.towardZero c)) 0 := by
        have := add_le_add_right h1'
          (((conf.zip logProbs).map (fun cp => (cp.1 : ℚ) * cp.2)).sum)
        linarith
    _ ≤ _ := h2

/-- Witness for claim C5 with the exact-arithmetic operations on a
concrete configuration. -/
theorem claim_C5_witness :
    (unnormalized_logProb exactOps [1, 2] [1/2, 1/3] RoundMode.toNearest).2
      = RoundMode.toNearest ∧
    ([1, 2].map (exactOps.mlf RoundMode.towardZero)).sum
        + (([1, 2].zip [(1:ℚ)/2, 1/3]).map (fun cp => (cp.1 : ℚ) * cp.2)).sum
      ≤ (unnormalized_logProb exactOps [1, 2] [1/2, 1/3] RoundMode.toNearest).1 := by
  have h := claim_C5_rounding_regime exactOps [1, 2] [1/2, 1/3] RoundMode.toNearest
    (fun a b hab => ⟨le_refl (a + b), hab⟩)
    (fun a b => le_refl (a + b))
    (fun c p => le_refl ((c : ℚ) * p))
    (fun c => le_refl 0)
  exact ⟨h.1, h.2.2⟩

/-- Claim C6: the comparison cutoff of a threshold generator constructed
with `absolute = true` is the logarithm of the threshold, and with
`absolute = false` it is the logarithm of the threshold plus the joint
mode's log-probability, so a relative threshold is a fraction of the
mode's height. -/
theorem claim_C6_threshold_semantics (iso : IsoDescr) (logThreshold : ℚ) :
    (mkGen iso logThreshold true).Lcutoff = logThreshold ∧
    (mkGen iso logThreshold false).Lcutoff = logThreshold + iso.modeLProb :=
  ⟨rfl, rfl⟩

/-- Claim C7: from construction on, the base, fast and count-only
threshold generators return identical boolean sequences of
`advanceToNextConfiguration` results up to and including the first
`false`, so the number of successful advances (emissions) is the same for
all three variants. -/
theorem claim_C7_count_invariance (g : Gen) (n : ℕ) :
    boolsF g n (IsoThresholdGeneratorFast.construct g)
      = boolsB g n (IsoThresholdGenerator.construct g) ∧
    boolsC g n (IsoThresholdGeneratorCntr.construct g)
      = boolsB g n (IsoThresholdGenerator.construct g) ∧
    (boolsF g n (IsoThresholdGeneratorFast.construct g)).count true
      = (boolsB g n (IsoThresholdGenerator.construct g)).count true ∧
    (boolsC g n (IsoThresholdGeneratorCntr.construct g)).count true
      = (boolsB g n (IsoThresholdGenerator.construct g)).count true := by
  have h1 := boolsBF_eq g n _ _ (relBF_construct g)
  have h2 := boolsFC_eq g n _ _ (relFC_construct g)
  exact ⟨h1, h2.trans h1, by rw [h1], by rw [h2, h1]⟩

/-- Claim C8 (counterexample): constructing a threshold generator with the
relative threshold 2 (greater than 1) returns a successfully constructed
generator — the `Except.ok` constructor, not the `Except.error
InvalidThreshold` failure the claim requires. -/
theorem claim_C8_counterexample :
    mkThresholdGenerator isoEx (fun q => q) 2 false
      = Except.ok (mkGen isoEx 2 false) := rfl

/-- Claim C8 (amended): constructing a threshold generator with a
non-positive threshold fails with the typed error `InvalidThreshold`,
while a relative threshold greater than 1 is silently accepted and
construction proceeds (producing a trivially empty enumeration). -/
theorem claim_C8_amended (iso : IsoDescr) (logf : ℚ → ℚ) (threshold : ℚ)
    (absolute : Bool) :
    (threshold ≤ 0 →
      mkThresholdGenerator iso logf threshold absolute
        = Except.error IsoSpecError.InvalidThreshold) ∧
    (1 < threshold →
      mkThresholdGenerator iso logf threshold absolute
        = Except.ok (mkGen iso (logf threshold) absolute)) := by
  constructor
  · intro h
    rw [mkThresholdGenerator, if_pos h]
  · intro h
    rw [mkThresholdGenerator, if_neg (by linarith)]

/-- Witness for claim C8's amended theorem at thresholds -1 and 2. -/
theorem claim_C8_witness :
    mkThresholdGenerator isoEx (fun q => q) (-1) true
        = Except.error IsoSpecError.InvalidThreshold ∧
    mkThresholdGenerator isoEx (fun q => q) 2 false
        = Except.ok (mkGen isoEx 2 false) :=
  ⟨(claim_C8_amended isoEx (fun q => q) (-1) true).1 (by norm_num),
   (claim_C8_amended isoEx (fun q => q) 2 false).2 (by norm_num)⟩

/-- Claim C9: the ordered generator's `get_conf_signature` restores the
configuration vector inside `topConf` that it temporarily decrements at
position `ccount` — the state it leaves behind is the state it received —
and therefore a second consecutive call writes an identical buffer. -/
theorem claim_C9_signature_pure (dimNumber : ℕ) (isotopeNumbers : ℕ → ℕ)
    (marginalConfs : ℕ → ℤ → List ℤ) (topConf : List ℤ) (ccount : ℤ) :
    (IsoOrderedGenerator.get_conf_signature dimNumber isotopeNumbers marginalConfs
      topConf ccount).2 = topConf ∧
    (IsoOrderedGenerator.get_conf_signature dimNumber isotopeNumbers marginalConfs
      (IsoOrderedGenerator.get_conf_signature dimNumber isotopeNumbers marginalConfs
        topConf ccount).2 ccount).1
      = (IsoOrderedGenerator.get_conf_signature dimNumber isotopeNumbers marginalConfs
        topConf ccount).1 :=
  ordered_sig_pure dimNumber isotopeNumbers marginalConfs topConf ccount

/-- Claim C10: the value returned by `unnormalized_logProb` does not
depend on the rounding mode in force at the call site — every mode it
computes under is set explicitly, and the entry mode is only saved and
restored. -/
theorem claim_C10_mode_independent (ops : FloatOps) (conf : List ℤ)
    (logProbs : List ℚ) (m1 m2 : RoundMode) :
    (unnormalized_logProb ops conf logProbs m1).1
      = (unnormalized_logProb ops conf logProbs m2).1 ∧
    (unnormalized_logProb ops conf logProbs m1).2 = m1 :=
  ⟨rfl, rfl⟩

end IsoSpecVerify
